import Mathlib

/-!
# Verification of the fitting-room process synchronization program

This development is a shallow embedding of the reference source
(the module with the `Lightswitch` class and the `blue_thread_func` /
`green_thread_func` thread targets).

Each Python statement that touches shared synchronization state
(a semaphore operation, a shared-counter mutation, or a mutex
acquire/release) is one atomic step of a small-step transition system.
Threads are records carrying their color, a program counter that names the
next shared-state statement they will execute, and the local variable
`current_thread_id`.  The scheduler is the only source of nondeterminism:
a step picks one thread and executes its next statement if it is enabled.

Shared state mirrors the module-level objects of the source:

* `turnstile`        : the binary semaphore `turnstile` (value, init 1)
* `bgm`              : the binary semaphore `blue_green_mutex` (value, init 1)
* `counter`          : the `counter` fields of `blue_in_room` / `green_in_room`
* `lsMutex`          : the `mutex` binary semaphores of the two lightswitches
* `slots`            : the counting semaphores `num_allowed_blue` / `num_allowed_green`
* `threadId`         : the global `thread_id`
* `roomCtr`          : the global `room_ctr`
* `roomMutex`        : the `room_mutex` lock (`true` iff held)
* `log`              : ghost history of the IDs assigned (in the order the
                       statement `current_thread_id = thread_id` runs, which is
                       also the order of the `Thread ID:` messages)

`fit_clothes()` and the `safe_print` calls touch no synchronization state and
are not separate steps; the branch conditions that guard the two prints read
state under `room_mutex` and are irrelevant to every claim proved here.
-/

namespace ProcSync

/-- The two thread colors of the source (`BLUE` and `GREEN`). -/
inductive Color : Type
  | blue
  | green
deriving DecidableEq

/-- Program counter: the next shared-state statement a thread will execute.
Each constructor corresponds to a statement of `blue_thread_func` /
`green_thread_func` (with the lightswitch calls inlined from
`Lightswitch.lock` / `Lightswitch.unlock`); the color-specific objects are
resolved through the thread's color. -/
inductive PC : Type
  | acqTurnstile    -- turnstile.acquire()                      (line 208/295)
  | lsAcqMutex      -- self.mutex.acquire()    in lock()        (line 119)
  | lsInc           -- self.counter += 1; branch on counter==1  (lines 122-126)
  | lsAcqBGM        -- blue_green_mutex.acquire() in lock()     (line 127)
  | lsRelMutex      -- self.mutex.release()    in lock()        (line 130)
  | relTurnstile    -- turnstile.release()                      (line 210/297)
  | acqSlots        -- num_allowed_<color>.acquire()            (line 220/307)
  | acqRoomMutex1   -- room_mutex acquire (entry with-block)    (line 234/321)
  | incThreadId     -- thread_id += 1                           (line 235/322)
  | incRoomCtr      -- room_ctr += 1                            (line 236/323)
  | setTid          -- current_thread_id = thread_id            (line 242/329)
  | relRoomMutex1   -- room_mutex release (end entry block)
  | acqRoomMutex2   -- room_mutex acquire (exit with-block)     (line 262/349)
  | relSlots        -- num_allowed_<color>.release()            (line 263/350)
  | decRoomCtr      -- room_ctr -= 1                            (line 264/351)
  | relRoomMutex2   -- room_mutex release (end exit block)
  | lsUnlAcqMutex   -- self.mutex.acquire()    in unlock()      (line 136)
  | lsDec           -- self.counter -= 1; branch on counter==0  (lines 139-143)
  | lsRelBGM        -- blue_green_mutex.release() in unlock()   (line 144)
  | lsUnlRelMutex   -- self.mutex.release()    in unlock()      (line 147)
  | done            -- thread function returned
deriving DecidableEq, Fintype

/-- One worker thread: its color, its program counter, and the local variable
`current_thread_id` (set once inside the entry critical section). -/
structure Thread : Type where
  color : Color
  pc : PC
  tid : Option Nat
deriving DecidableEq

/-- A pair of values indexed by color, for the per-color objects
(`blue_in_room` / `green_in_room` counters and mutexes,
`num_allowed_blue` / `num_allowed_green`). -/
structure Duo (α : Type) : Type where
  blue : α
  green : α
deriving DecidableEq

/-- Read the component of a `Duo` selected by a color. -/
def Duo.get {α : Type} (d : Duo α) : Color → α
  | .blue => d.blue
  | .green => d.green

/-- Replace the component of a `Duo` selected by a color. -/
def Duo.set {α : Type} (d : Duo α) : Color → α → Duo α
  | .blue, x => { d with blue := x }
  | .green, x => { d with green := x }

/-- The opposite color. -/
def Color.other : Color → Color
  | .blue => .green
  | .green => .blue

/-- The shared state of the whole program plus the thread pool. -/
structure Sys : Type where
  turnstile : Nat
  bgm : Nat
  counter : Duo Int
  lsMutex : Duo Nat
  slots : Duo Nat
  threadId : Nat
  roomCtr : Int
  roomMutex : Bool
  threads : List Thread
  log : List Nat
deriving DecidableEq

/-- Initial state: all semaphores as constructed at module scope
(`turnstile = Semaphore(1)`, `blue_green_mutex = Semaphore(1)`, lightswitch
counters `0` with free internal mutexes, `num_allowed_* = Semaphore(num_slots)`,
`thread_id = 0`, `room_ctr = 0`, `room_mutex` free), with one thread per entry
of `cols`, each about to execute its first statement. -/
def initSys (N : Nat) (cols : List Color) : Sys where
  turnstile := 1
  bgm := 1
  counter := ⟨0, 0⟩
  lsMutex := ⟨1, 1⟩
  slots := ⟨N, N⟩
  threadId := 0
  roomCtr := 0
  roomMutex := false
  threads := cols.map fun c => ⟨c, .acqTurnstile, none⟩
  log := []

/-- Execute the next statement of thread `i` (already fetched as `th`).
Returns `none` when the statement is a blocking acquire whose semaphore/lock
is unavailable, or when the thread has finished. -/
def stepOf (s : Sys) (i : Nat) (th : Thread) : Option Sys :=
  let c := th.color
  let upd : PC → List Thread := fun p => s.threads.set i { th with pc := p }
  match th.pc with
  | .acqTurnstile =>
      if s.turnstile = 0 then none
      else some { s with turnstile := s.turnstile - 1, threads := upd .lsAcqMutex }
  | .lsAcqMutex =>
      if s.lsMutex.get c = 0 then none
      else some { s with lsMutex := s.lsMutex.set c (s.lsMutex.get c - 1),
                         threads := upd .lsInc }
  | .lsInc =>
      let k := s.counter.get c + 1
      some { s with counter := s.counter.set c k,
                    threads := upd (if k = 1 then .lsAcqBGM else .lsRelMutex) }
  | .lsAcqBGM =>
      if s.bgm = 0 then none
      else some { s with bgm := s.bgm - 1, threads := upd .lsRelMutex }
  | .lsRelMutex =>
      some { s with lsMutex := s.lsMutex.set c (s.lsMutex.get c + 1),
                    threads := upd .relTurnstile }
  | .relTurnstile =>
      some { s with turnstile := s.turnstile + 1, threads := upd .acqSlots }
  | .acqSlots =>
      if s.slots.get c = 0 then none
      else some { s with slots := s.slots.set c (s.slots.get c - 1),
                         threads := upd .acqRoomMutex1 }
  | .acqRoomMutex1 =>
      if s.roomMutex then none
      else some { s with roomMutex := true, threads := upd .incThreadId }
  | .incThreadId =>
      some { s with threadId := s.threadId + 1, threads := upd .incRoomCtr }
  | .incRoomCtr =>
      some { s with roomCtr := s.roomCtr + 1, threads := upd .setTid }
  | .setTid =>
      some { s with threads := s.threads.set i { th with pc := .relRoomMutex1,
                                                          tid := some s.threadId },
                    log := s.log ++ [s.threadId] }
  | .relRoomMutex1 =>
      some { s with roomMutex := false, threads := upd .acqRoomMutex2 }
  | .acqRoomMutex2 =>
      if s.roomMutex then none
      else some { s with roomMutex := true, threads := upd .relSlots }
  | .relSlots =>
      some { s with slots := s.slots.set c (s.slots.get c + 1),
                    threads := upd .decRoomCtr }
  | .decRoomCtr =>
      some { s with roomCtr := s.roomCtr - 1, threads := upd .relRoomMutex2 }
  | .relRoomMutex2 =>
      some { s with roomMutex := false, threads := upd .lsUnlAcqMutex }
  | .lsUnlAcqMutex =>
      if s.lsMutex.get c = 0 then none
      else some { s with lsMutex := s.lsMutex.set c (s.lsMutex.get c - 1),
                         threads := upd .lsDec }
  | .lsDec =>
      let k := s.counter.get c - 1
      some { s with counter := s.counter.set c k,
                    threads := upd (if k = 0 then .lsRelBGM else .lsUnlRelMutex) }
  | .lsRelBGM =>
      some { s with bgm := s.bgm + 1, threads := upd .lsUnlRelMutex }
  | .lsUnlRelMutex =>
      some { s with lsMutex := s.lsMutex.set c (s.lsMutex.get c + 1),
                    threads := upd .done }
  | .done => none

/-- Execute the next statement of thread `i`, if `i` is a live thread index. -/
def threadNext (s : Sys) (i : Nat) : Option Sys :=
  match s.threads[i]? with
  | some th => stepOf s i th
  | none => none

/-- One step of the whole system: some thread executes its next statement. -/
def Step (s s' : Sys) : Prop := ∃ i : Nat, threadNext s i = some s'

/-- Reachability from the initial state of a run with capacity `N` and the
given multiset of thread colors (the source shuffles thread start order;
scheduler nondeterminism subsumes every start order). -/
def Reach (N : Nat) (cols : List Color) (s : Sys) : Prop :=
  Relation.ReflTransGen Step (initSys N cols) s

/-- Run a finite schedule (a list of thread indices), failing if any chosen
thread is not enabled. -/
def runSched (s : Sys) : List Nat → Option Sys
  | [] => some s
  | i :: is =>
      match threadNext s i with
      | some s' => runSched s' is
      | none => none

/-! ## Program-counter regions

Each predicate marks the program counters at which a thread owns a particular
resource or is inside a particular region; the boundaries follow directly
from which statement acquires/increments and which releases/decrements. -/

/-- The thread holds the `turnstile` semaphore (acquired at line 208/295,
released at line 210/297). -/
def turnstilePC : PC → Bool
  | .lsAcqMutex | .lsInc | .lsAcqBGM | .lsRelMutex | .relTurnstile => true
  | _ => false

/-- The thread holds its lightswitch's internal `mutex`. -/
def lsMutexPC : PC → Bool
  | .lsInc | .lsAcqBGM | .lsRelMutex | .lsDec | .lsRelBGM | .lsUnlRelMutex => true
  | _ => false

/-- The thread holds the `room_mutex` lock. -/
def roomMutexPC : PC → Bool
  | .incThreadId | .incRoomCtr | .setTid | .relRoomMutex1
  | .relSlots | .decRoomCtr | .relRoomMutex2 => true
  | _ => false

/-- The thread holds one permit of its color's `num_allowed_*` semaphore
(acquired at line 220/307, released at line 263/350). -/
def holdsSlotPC : PC → Bool
  | .acqRoomMutex1 | .incThreadId | .incRoomCtr | .setTid
  | .relRoomMutex1 | .acqRoomMutex2 | .relSlots => true
  | _ => false

/-- The thread is counted by its lightswitch's `counter` (it has executed
`counter += 1` and not yet `counter -= 1`). -/
def lsCountedPC : PC → Bool
  | .lsAcqBGM | .lsRelMutex | .relTurnstile | .acqSlots | .acqRoomMutex1
  | .incThreadId | .incRoomCtr | .setTid | .relRoomMutex1 | .acqRoomMutex2
  | .relSlots | .decRoomCtr | .relRoomMutex2 | .lsUnlAcqMutex | .lsDec => true
  | _ => false

/-- The thread is in the fitting room: it has executed `room_ctr += 1`
(line 236/323) and not yet `room_ctr -= 1` (line 264/351). -/
def inRoomPC : PC → Bool
  | .setTid | .relRoomMutex1 | .acqRoomMutex2 | .relSlots | .decRoomCtr => true
  | _ => false

/-- The thread holds a `num_allowed_*` permit but has not yet incremented
`room_ctr` (it is on the entry path). -/
def enteringPC : PC → Bool
  | .acqRoomMutex1 | .incThreadId | .incRoomCtr => true
  | _ => false

/-- The thread has executed `thread_id += 1` in its entry critical section but
not yet read it into `current_thread_id`. -/
def midTidPC : PC → Bool
  | .incRoomCtr | .setTid => true
  | _ => false

/-- Program counters whose statement is a blocking acquire. -/
def blockingPC : PC → Bool
  | .acqTurnstile | .lsAcqMutex | .lsAcqBGM | .acqSlots
  | .acqRoomMutex1 | .acqRoomMutex2 | .lsUnlAcqMutex => true
  | _ => false

/-! ## Counting threads -/

/-- Number of threads whose program counter satisfies `p`. -/
def cnt (s : Sys) (p : PC → Bool) : Nat :=
  s.threads.countP fun th => p th.pc

/-- Number of threads of color `c` whose program counter satisfies `p`. -/
def cntc (s : Sys) (c : Color) (p : PC → Bool) : Nat :=
  s.threads.countP fun th => th.color == c && p th.pc

/-- Some thread of color `c` is parked at `blue_green_mutex.acquire()` inside
`Lightswitch.lock` (it has driven the counter 0 → 1 and not yet acquired the
exclusion semaphore). -/
def pendAcq (s : Sys) (c : Color) : Prop :=
  0 < cntc s c fun pc => pc == PC.lsAcqBGM

/-- Some thread of color `c` is about to execute `blue_green_mutex.release()`
inside `Lightswitch.unlock` (it has driven the counter to 0 and not yet
released the exclusion semaphore). -/
def pendRel (s : Sys) (c : Color) : Prop :=
  0 < cntc s c fun pc => pc == PC.lsRelBGM

instance (s : Sys) (c : Color) : Decidable (pendAcq s c) := by
  unfold pendAcq; infer_instance

instance (s : Sys) (c : Color) : Decidable (pendRel s c) := by
  unfold pendRel; infer_instance

/-- Color `c` logically owns the `blue_green_mutex`: either its lightswitch
counter is positive and its 0 → 1 acquisition has completed, or its counter
just hit 0 and the release has not happened yet. -/
def owns (s : Sys) (c : Color) : Prop :=
  (0 < s.counter.get c ∧ ¬ pendAcq s c) ∨ pendRel s c

instance (s : Sys) (c : Color) : Decidable (owns s c) := by
  unfold owns; infer_instance

/-- `1` if color `c` owns the `blue_green_mutex`, else `0`. -/
def ownsCount (s : Sys) (c : Color) : Nat :=
  if owns s c then 1 else 0

/-- In-room threads that still hold their capacity permit. -/
def midroomPC : PC → Bool
  | .setTid | .relRoomMutex1 | .acqRoomMutex2 | .relSlots => true
  | _ => false

/-- Number of remaining statements of a thread at the given pc (both branch
targets of a conditional statement rank strictly below it). -/
def pcRank : PC → Nat
  | .done => 0
  | .lsUnlRelMutex => 1
  | .lsRelBGM => 2
  | .lsDec => 3
  | .lsUnlAcqMutex => 4
  | .relRoomMutex2 => 5
  | .decRoomCtr => 6
  | .relSlots => 7
  | .acqRoomMutex2 => 8
  | .relRoomMutex1 => 9
  | .setTid => 10
  | .incRoomCtr => 11
  | .incThreadId => 12
  | .acqRoomMutex1 => 13
  | .acqSlots => 14
  | .relTurnstile => 15
  | .lsRelMutex => 16
  | .lsAcqBGM => 17
  | .lsInc => 18
  | .lsAcqMutex => 19
  | .acqTurnstile => 20

/-- Total number of statements the system can still execute. -/
def stepsLeft (s : Sys) : Nat :=
  (s.threads.map fun th => pcRank th.pc).sum

/-! ## Sequential denotation of the Lightswitch methods

`Lightswitch.lock` and `Lightswitch.unlock` acquire `self.mutex` on entry and
release it on exit, so an uncontended call is a function of the `counter`
field and of the `blue_green_mutex` value.  `lock` blocks (returns `none`)
when the counter was 0 and the exclusion semaphore is unavailable. -/

/-- `Lightswitch.lock(blue_green_mutex)` (lines 117-130): increment the
counter; if it became 1, acquire the exclusion semaphore. -/
def lightswitchLock (counter : Int) (bgm : Nat) : Option (Int × Nat) :=
  let k := counter + 1
  if k = 1 then
    if bgm = 0 then none
    else some (k, bgm - 1)
  else some (k, bgm)

/-- `Lightswitch.unlock(blue_green_mutex)` (lines 134-147): decrement the
counter; if it reached 0, release the exclusion semaphore. -/
def lightswitchUnlock (counter : Int) (bgm : Nat) : Int × Nat :=
  let k := counter - 1
  if k = 0 then (k, bgm + 1)
  else (k, bgm)

/-! ## Configuration validation and program start -/

/-- The module-level input validation (lines 77-90): condition and message of
each of the four checks, in source order. -/
def configure (num_slots num_blue num_green : Int) : Except String Unit :=
  if num_slots ≤ 0 then
    .error "The number of slots should be positive."
  else if num_blue < 0 then
    .error "The number of blue threads should be nonnegative."
  else if num_green < 0 then
    .error "The number of green threads should be nonnegative."
  else if num_blue = 0 ∧ num_green = 0 then
    .error "No threads to synchronize!"
  else .ok ()

/-- Thread creation (lines 370-377): `num_blue` blue threads then `num_green`
green threads.  The source then shuffles the start order, which scheduler
nondeterminism subsumes. -/
def mkColors (num_blue num_green : Nat) : List Color :=
  List.replicate num_blue Color.blue ++ List.replicate num_green Color.green

/-- Program start: validate the configuration; only on success build the
initial synchronization state holding the created (not yet started) threads. -/
def setup (num_slots num_blue num_green : Int) : Except String Sys :=
  match configure num_slots num_blue num_green with
  | .error e => .error e
  | .ok _ => .ok (initSys num_slots.toNat
      (mkColors num_blue.toNat num_green.toNat))

/-! ## Concrete runs used as witnesses -/

/-- One blue worker, capacity 1. -/
def colsOne : List Color := [Color.blue]

/-- Drive the single blue worker through its entry sequence, including the
ID assignment, up to the release of `room_mutex`. -/
def sOne : Sys :=
  (runSched (initSys 1 colsOne) (List.replicate 12 0)).getD (initSys 1 colsOne)

/-- Drive the single blue worker to the statement after the lightswitch
counter increment of `lock`. -/
def sAtInc : Sys :=
  (runSched (initSys 1 colsOne) [0, 0]).getD (initSys 1 colsOne)

/-- Drive the single blue worker to the statement after the lightswitch
mutex acquire of `unlock`. -/
def sAtDec : Sys :=
  (runSched (initSys 1 colsOne) (List.replicate 17 0)).getD (initSys 1 colsOne)

/-- Run the single blue worker to completion. -/
def sDone : Sys :=
  (runSched (initSys 1 colsOne) (List.replicate 20 0)).getD (initSys 1 colsOne)

/-- Two blue workers, capacity 2: drive the first into the room up to the
exit-block acquire, then the second into the room up to the entry-block
release, so both occupy the room simultaneously. -/
def sTwo : Sys :=
  (runSched (initSys 2 [Color.blue, Color.blue])
    (List.replicate 12 0 ++ List.replicate 11 1)).getD
      (initSys 2 [Color.blue, Color.blue])

/-- Two blue workers, capacity 1: drive the first through entry and into the
exit block just past `num_allowed_blue.release()` (but before
`room_ctr -= 1`), then let the second grab the released permit. -/
def sPermit : Sys :=
  (runSched (initSys 1 [Color.blue, Color.blue])
    (List.replicate 14 0 ++ List.replicate 6 1)).getD
      (initSys 1 [Color.blue, Color.blue])

/-- A green worker followed by a blue worker, capacity 1: the green worker
enters the room (owning `blue_green_mutex`); the blue worker passes the
turnstile and its lightswitch mutex and parks at
`blue_green_mutex.acquire()`. -/
def sBlocked : Sys :=
  (runSched (initSys 1 [Color.green, Color.blue])
    (List.replicate 6 0 ++ List.replicate 3 1)).getD
      (initSys 1 [Color.green, Color.blue])

/-- The state after the single enabled statement of the fresh one-worker
system. -/
def sFirst : Sys :=
  (threadNext (initSys 1 colsOne) 0).getD (initSys 1 colsOne)

/-! ## The inductive invariant -/

/-- The global inductive invariant of a run with capacity `N`.  Every field is
preserved by every step and holds initially. -/
structure Inv (N : Nat) (s : Sys) : Prop where
  /-- Turnstile accounting: the semaphore value plus its holders is `1`. -/
  turn : s.turnstile + cnt s turnstilePC = 1
  /-- Lightswitch-mutex accounting, per color. -/
  lsm : ∀ c, s.lsMutex.get c + cntc s c lsMutexPC = 1
  /-- `room_mutex` is held iff exactly one thread is inside a
  `with room_mutex` block. -/
  room : cnt s roomMutexPC = if s.roomMutex then 1 else 0
  /-- Multiplexer accounting: semaphore value plus held permits is `N`. -/
  slot : ∀ c, s.slots.get c + cntc s c holdsSlotPC = N
  /-- Each lightswitch counter equals the number of threads of its color
  between the increment and the decrement. -/
  ctr : ∀ c, s.counter.get c = (cntc s c lsCountedPC : Int)
  /-- `room_ctr` equals the number of threads in the room. -/
  occ : s.roomCtr = (cnt s inRoomPC : Int)
  /-- `blue_green_mutex` accounting: free iff neither color owns it, and the
  two colors never own it simultaneously. -/
  bgmInv : s.bgm + ownsCount s .blue + ownsCount s .green = 1
  /-- A thread parked on the exclusion acquire is the unique counted thread of
  its color. -/
  pa : ∀ c, pendAcq s c → s.counter.get c = 1
  /-- A thread about to release the exclusion semaphore has counter `0`. -/
  pr : ∀ c, pendRel s c → s.counter.get c = 0
  /-- While an exiting thread is between `num_allowed_*.release()` and
  `room_ctr -= 1`, the permit it released is in the semaphore or held by a
  thread still on the entry path. -/
  exitSlot : ∀ c, 0 < cntc s c (fun pc => pc == PC.decRoomCtr) →
      1 ≤ s.slots.get c + cntc s c enteringPC
  /-- The assigned IDs, in assignment order, are strictly increasing. -/
  logSorted : s.log.Pairwise (· < ·)
  /-- Every assigned ID is at most the current `thread_id`. -/
  logLe : ∀ x ∈ s.log, x ≤ s.threadId
  /-- After `thread_id += 1` and before the ID is recorded, `thread_id` is
  strictly above every recorded ID. -/
  logLt : 0 < cnt s midTidPC → ∀ x ∈ s.log, x < s.threadId

/-! ## Basic lemmas about `Duo` and counting -/

@[simp] theorem Duo.get_set_same {α : Type} (d : Duo α) (c : Color) (x : α) :
    (d.set c x).get c = x := by
  cases c <;> rfl

@[simp] theorem Duo.get_set_ne {α : Type} (d : Duo α) {c c' : Color} (x : α)
    (h : c' ≠ c) : (d.set c x).get c' = d.get c' := by
  cases c <;> cases c' <;> first | rfl | exact absurd rfl h

theorem countP_set_of_getElem {α : Type} (l : List α) (i : Nat) (a b : α)
    (hl : l[i]? = some a) (p : α → Bool) :
    (l.set i b).countP p + (if p a then 1 else 0)
      = l.countP p + (if p b then 1 else 0) := by
  induction l generalizing i with
  | nil => simp at hl
  | cons x xs ih =>
    cases i with
    | zero =>
      rw [List.getElem?_cons_zero, Option.some.injEq] at hl
      subst hl
      simp only [List.set_cons_zero, List.countP_cons]
      omega
    | succ n =>
      rw [List.getElem?_cons_succ] at hl
      simp only [List.set_cons_succ, List.countP_cons]
      have := ih n hl
      omega

/-- Count unchanged when the replaced element keeps its predicate value. -/
theorem countP_set_eq {α : Type} {l : List α} {i : Nat} {a : α} (b : α)
    (hl : l[i]? = some a) {p : α → Bool} (h : p a = p b) :
    (l.set i b).countP p = l.countP p := by
  have := countP_set_of_getElem l i a b hl p
  rw [h] at this
  omega

/-- Count increments when the replaced element enters the predicate. -/
theorem countP_set_succ {α : Type} {l : List α} {i : Nat} {a : α} (b : α)
    (hl : l[i]? = some a) {p : α → Bool} (ha : p a = false) (hb : p b = true) :
    (l.set i b).countP p = l.countP p + 1 := by
  have := countP_set_of_getElem l i a b hl p
  rw [ha, hb] at this
  simp at this
  omega

/-- Count decrements when the replaced element leaves the predicate. -/
theorem countP_set_pred {α : Type} {l : List α} {i : Nat} {a : α} (b : α)
    (hl : l[i]? = some a) {p : α → Bool} (ha : p a = true) (hb : p b = false) :
    (l.set i b).countP p + 1 = l.countP p := by
  have := countP_set_of_getElem l i a b hl p
  rw [ha, hb] at this
  simp at this
  omega

/-- Counting a disjunction of disjoint predicates adds the counts. -/
theorem countP_disj {α : Type} (l : List α) (p q : α → Bool)
    (h : ∀ a, ¬(p a = true ∧ q a = true)) :
    l.countP (fun a => p a || q a) = l.countP p + l.countP q := by
  induction l with
  | nil => simp
  | cons x xs ih =>
    simp only [List.countP_cons, ih]
    have := h x
    cases hp : p x <;> cases hq : q x <;> simp_all <;> omega

theorem pendAcq_congr {s s' : Sys} {c : Color}
    (h : cntc s' c (fun pc => pc == PC.lsAcqBGM)
       = cntc s c (fun pc => pc == PC.lsAcqBGM)) :
    pendAcq s' c ↔ pendAcq s c := by
  unfold pendAcq
  omega

theorem pendRel_congr {s s' : Sys} {c : Color}
    (h : cntc s' c (fun pc => pc == PC.lsRelBGM)
       = cntc s c (fun pc => pc == PC.lsRelBGM)) :
    pendRel s' c ↔ pendRel s c := by
  unfold pendRel
  omega

theorem ownsCount_congr {s s' : Sys} (c : Color)
    (h1 : s'.counter.get c = s.counter.get c)
    (h2 : pendAcq s' c ↔ pendAcq s c)
    (h3 : pendRel s' c ↔ pendRel s c) :
    ownsCount s' c = ownsCount s c := by
  have hiff : owns s' c ↔ owns s c := by
    unfold owns
    rw [h1]
    exact or_congr (and_congr Iff.rfl (not_congr h2)) h3
  unfold ownsCount
  exact if_congr hiff rfl rfl

/-! ## The invariant holds initially -/

theorem cnt_init {N : Nat} {cols : List Color} {p : PC → Bool}
    (h : p PC.acqTurnstile = false) : cnt (initSys N cols) p = 0 := by
  simp only [cnt, initSys, List.countP_map]
  rw [List.countP_eq_zero]
  intro a _
  simpa [Function.comp] using h

theorem cntc_init {N : Nat} {cols : List Color} {c : Color} {p : PC → Bool}
    (h : p PC.acqTurnstile = false) : cntc (initSys N cols) c p = 0 := by
  simp only [cntc, initSys, List.countP_map]
  rw [List.countP_eq_zero]
  intro a _
  simp [Function.comp, h]

theorem ownsCount_init (N : Nat) (cols : List Color) (c : Color) :
    ownsCount (initSys N cols) c = 0 := by
  have h1 : ¬ pendRel (initSys N cols) c := by
    unfold pendRel
    rw [cntc_init (by rfl)]
    omega
  have h2 : (initSys N cols).counter.get c = 0 := by cases c <;> rfl
  unfold ownsCount
  rw [if_neg]
  unfold owns
  rw [h2]
  simp [h1]

theorem inv_init (N : Nat) (cols : List Color) : Inv N (initSys N cols) := by
  refine ⟨?_, ?_, ?_, ?_, ?_, ?_, ?_, ?_, ?_, ?_, ?_, ?_, ?_⟩
  · rw [cnt_init (by rfl)]
    rfl
  · intro c
    rw [cntc_init (by rfl)]
    cases c <;> rfl
  · rw [cnt_init (by rfl)]
    rfl
  · intro c
    rw [cntc_init (by rfl)]
    cases c <;> rfl
  · intro c
    rw [cntc_init (by rfl)]
    cases c <;> rfl
  · rw [cnt_init (by rfl)]
    rfl
  · rw [ownsCount_init, ownsCount_init]
    rfl
  · intro c h
    exact absurd h (by unfold pendAcq; rw [cntc_init (by rfl)]; omega)
  · intro c h
    exact absurd h (by unfold pendRel; rw [cntc_init (by rfl)]; omega)
  · intro c h
    exact absurd h (by rw [cntc_init (by rfl)]; omega)
  · simp [initSys]
  · intro x hx
    simp [initSys] at hx
  · intro h
    rw [cnt_init (by rfl)] at h
    omega

/-! ## Frame lemmas: invariant fields untouched by a step -/

theorem frameTurn {N : Nat} {s s' : Sys} (Is : Inv N s)
    (hv : s'.turnstile = s.turnstile)
    (hc : cnt s' turnstilePC = cnt s turnstilePC) :
    s'.turnstile + cnt s' turnstilePC = 1 := by
  rw [hv, hc]; exact Is.turn

theorem frameLsm {N : Nat} {s s' : Sys} (Is : Inv N s)
    (hv : s'.lsMutex = s.lsMutex)
    (hc : ∀ c, cntc s' c lsMutexPC = cntc s c lsMutexPC) :
    ∀ c, s'.lsMutex.get c + cntc s' c lsMutexPC = 1 := by
  intro c; rw [hv, hc]; exact Is.lsm c

theorem frameRoom {N : Nat} {s s' : Sys} (Is : Inv N s)
    (hv : s'.roomMutex = s.roomMutex)
    (hc : cnt s' roomMutexPC = cnt s roomMutexPC) :
    cnt s' roomMutexPC = if s'.roomMutex then 1 else 0 := by
  rw [hv, hc]; exact Is.room

theorem frameSlot {N : Nat} {s s' : Sys} (Is : Inv N s)
    (hv : s'.slots = s.slots)
    (hc : ∀ c, cntc s' c holdsSlotPC = cntc s c holdsSlotPC) :
    ∀ c, s'.slots.get c + cntc s' c holdsSlotPC = N := by
  intro c; rw [hv, hc]; exact Is.slot c

theorem frameCtr {N : Nat} {s s' : Sys} (Is : Inv N s)
    (hv : s'.counter = s.counter)
    (hc : ∀ c, cntc s' c lsCountedPC = cntc s c lsCountedPC) :
    ∀ c, s'.counter.get c = (cntc s' c lsCountedPC : Int) := by
  intro c; rw [hv, hc]; exact Is.ctr c

theorem frameOcc {N : Nat} {s s' : Sys} (Is : Inv N s)
    (hv : s'.roomCtr = s.roomCtr)
    (hc : cnt s' inRoomPC = cnt s inRoomPC) :
    s'.roomCtr = (cnt s' inRoomPC : Int) := by
  rw [hv, hc]; exact Is.occ

theorem frameBgm {N : Nat} {s s' : Sys} (Is : Inv N s)
    (hv : s'.bgm = s.bgm)
    (hctr : s'.counter = s.counter)
    (hpA : ∀ c, pendAcq s' c ↔ pendAcq s c)
    (hpR : ∀ c, pendRel s' c ↔ pendRel s c) :
    s'.bgm + ownsCount s' .blue + ownsCount s' .green = 1 := by
  rw [hv, ownsCount_congr .blue (by rw [hctr]) (hpA _) (hpR _),
      ownsCount_congr .green (by rw [hctr]) (hpA _) (hpR _)]
  exact Is.bgmInv

theorem framePa {N : Nat} {s s' : Sys} (Is : Inv N s)
    (hctr : s'.counter = s.counter)
    (hpA : ∀ c, pendAcq s' c ↔ pendAcq s c) :
    ∀ c, pendAcq s' c → s'.counter.get c = 1 := by
  intro c hp; rw [hctr]; exact Is.pa c ((hpA c).mp hp)

theorem framePr {N : Nat} {s s' : Sys} (Is : Inv N s)
    (hctr : s'.counter = s.counter)
    (hpR : ∀ c, pendRel s' c ↔ pendRel s c) :
    ∀ c, pendRel s' c → s'.counter.get c = 0 := by
  intro c hp; rw [hctr]; exact Is.pr c ((hpR c).mp hp)

theorem frameExit {N : Nat} {s s' : Sys} (Is : Inv N s)
    (hv : s'.slots = s.slots)
    (hd : ∀ c, cntc s' c (fun pc => pc == PC.decRoomCtr)
             = cntc s c (fun pc => pc == PC.decRoomCtr))
    (he : ∀ c, cntc s' c enteringPC = cntc s c enteringPC) :
    ∀ c, 0 < cntc s' c (fun pc => pc == PC.decRoomCtr) →
      1 ≤ s'.slots.get c + cntc s' c enteringPC := by
  intro c hp
  rw [hd] at hp
  rw [he, hv]
  exact Is.exitSlot c hp

theorem frameLogSorted {N : Nat} {s s' : Sys} (Is : Inv N s)
    (hl : s'.log = s.log) : s'.log.Pairwise (· < ·) := by
  rw [hl]; exact Is.logSorted

theorem frameLogLe {N : Nat} {s s' : Sys} (Is : Inv N s)
    (hl : s'.log = s.log) (hid : s'.threadId = s.threadId) :
    ∀ x ∈ s'.log, x ≤ s'.threadId := by
  rw [hl, hid]; exact Is.logLe

theorem frameLogLt {N : Nat} {s s' : Sys} (Is : Inv N s)
    (hl : s'.log = s.log) (hid : s'.threadId = s.threadId)
    (hm : cnt s' midTidPC = cnt s midTidPC) :
    0 < cnt s' midTidPC → ∀ x ∈ s'.log, x < s'.threadId := by
  intro hp
  rw [hm] at hp
  rw [hl, hid]
  exact Is.logLt hp

/-! ## Count-delta helpers for a single-thread update -/

theorem cnt_keep {s s' : Sys} {i : Nat} {c : Color} {tidA tidB : Option Nat}
    {A B : PC} (hthreads : s'.threads = s.threads.set i ⟨c, B, tidB⟩)
    (hth : s.threads[i]? = some ⟨c, A, tidA⟩)
    {p : PC → Bool} (hp : p A = p B) : cnt s' p = cnt s p := by
  unfold cnt
  rw [hthreads]
  exact countP_set_eq _ hth hp

theorem cntc_keep {s s' : Sys} {i : Nat} {c : Color} {tidA tidB : Option Nat}
    {A B : PC} (hthreads : s'.threads = s.threads.set i ⟨c, B, tidB⟩)
    (hth : s.threads[i]? = some ⟨c, A, tidA⟩)
    {p : PC → Bool} (hp : p A = p B) :
    ∀ c', cntc s' c' p = cntc s c' p := by
  intro c'
  unfold cntc
  rw [hthreads]
  refine countP_set_eq _ hth ?_
  show (c == c' && p A) = (c == c' && p B)
  rw [hp]

theorem cnt_succ {s s' : Sys} {i : Nat} {c : Color} {tidA tidB : Option Nat}
    {A B : PC} (hthreads : s'.threads = s.threads.set i ⟨c, B, tidB⟩)
    (hth : s.threads[i]? = some ⟨c, A, tidA⟩)
    {p : PC → Bool} (ha : p A = false) (hb : p B = true) :
    cnt s' p = cnt s p + 1 := by
  unfold cnt
  rw [hthreads]
  exact countP_set_succ _ hth ha hb

theorem cnt_pred {s s' : Sys} {i : Nat} {c : Color} {tidA tidB : Option Nat}
    {A B : PC} (hthreads : s'.threads = s.threads.set i ⟨c, B, tidB⟩)
    (hth : s.threads[i]? = some ⟨c, A, tidA⟩)
    {p : PC → Bool} (ha : p A = true) (hb : p B = false) :
    cnt s' p + 1 = cnt s p := by
  unfold cnt
  rw [hthreads]
  exact countP_set_pred _ hth ha hb

theorem cntc_succ_same {s s' : Sys} {i : Nat} {c : Color} {tidA tidB : Option Nat}
    {A B : PC} (hthreads : s'.threads = s.threads.set i ⟨c, B, tidB⟩)
    (hth : s.threads[i]? = some ⟨c, A, tidA⟩)
    {c' : Color} (hcc : c = c')
    {p : PC → Bool} (ha : p A = false) (hb : p B = true) :
    cntc s' c' p = cntc s c' p + 1 := by
  subst hcc
  unfold cntc
  rw [hthreads]
  refine countP_set_succ _ hth ?_ ?_
  · show (c == c && p A) = false
    rw [ha]
    simp
  · show (c == c && p B) = true
    rw [hb]
    simp

theorem cntc_pred_same {s s' : Sys} {i : Nat} {c : Color} {tidA tidB : Option Nat}
    {A B : PC} (hthreads : s'.threads = s.threads.set i ⟨c, B, tidB⟩)
    (hth : s.threads[i]? = some ⟨c, A, tidA⟩)
    {c' : Color} (hcc : c = c')
    {p : PC → Bool} (ha : p A = true) (hb : p B = false) :
    cntc s' c' p + 1 = cntc s c' p := by
  subst hcc
  unfold cntc
  rw [hthreads]
  refine countP_set_pred _ hth ?_ ?_
  · show (c == c && p A) = true
    rw [ha]
    simp
  · show (c == c && p B) = false
    rw [hb]
    simp

theorem cntc_ne {s s' : Sys} {i : Nat} {c : Color} {tidA tidB : Option Nat}
    {A B : PC} (hthreads : s'.threads = s.threads.set i ⟨c, B, tidB⟩)
    (hth : s.threads[i]? = some ⟨c, A, tidA⟩)
    {c' : Color} (hcc : c ≠ c') (p : PC → Bool) :
    cntc s' c' p = cntc s c' p := by
  unfold cntc
  rw [hthreads]
  refine countP_set_eq _ hth ?_
  show (c == c' && p A) = (c == c' && p B)
  have hbe : (c == c') = false := by
    simp [hcc]
  rw [hbe]
  rfl

theorem cntc_le_cnt (s : Sys) (c : Color) (p : PC → Bool) :
    cntc s c p ≤ cnt s p := by
  refine List.countP_mono_left ?_
  intro th _ h
  exact (Bool.and_eq_true _ _ |>.mp h).2

/-- If thread `i` sits at a pc inside region `r` but outside `q`, and some
thread of the same color sits inside `q ⊆ r`, then at least two threads of
that color are inside `r`. -/
theorem cntc_two {s : Sys} {i : Nat} {c : Color} {tid : Option Nat} {A : PC}
    {q r : PC → Bool} (hth : s.threads[i]? = some ⟨c, A, tid⟩)
    (hApos : r A = true) (hAq : q A = false)
    (hq : ∀ pc, q pc = true → r pc = true)
    (hpos : 0 < cntc s c q) : 2 ≤ cntc s c r := by
  have h1 : 0 < s.threads.countP fun th => th.color == c && th.pc == A :=
    List.countP_pos_iff.mpr ⟨_, List.getElem?_mem hth, by simp⟩
  have hdisj := countP_disj s.threads
      (fun th => th.color == c && q th.pc)
      (fun th => th.color == c && th.pc == A) ?_
  · have hmono : s.threads.countP
        (fun th => (th.color == c && q th.pc) || (th.color == c && th.pc == A))
          ≤ cntc s c r := by
      refine List.countP_mono_left ?_
      intro th _ h
      rcases Bool.or_eq_true _ _ |>.mp h with h' | h'
      · have hc := (Bool.and_eq_true _ _ |>.mp h').1
        have hqq := (Bool.and_eq_true _ _ |>.mp h').2
        exact Bool.and_eq_true _ _ |>.mpr ⟨hc, hq _ hqq⟩
      · have hc := (Bool.and_eq_true _ _ |>.mp h').1
        have hpc : th.pc = A := by
          have := (Bool.and_eq_true _ _ |>.mp h').2
          exact beq_iff_eq.mp this
        exact Bool.and_eq_true _ _ |>.mpr ⟨hc, hpc ▸ hApos⟩
    unfold cntc at hpos hmono ⊢
    omega
  · intro a ⟨h2, h3⟩
    have hpc : a.pc = A := beq_iff_eq.mp (Bool.and_eq_true _ _ |>.mp h3).2
    have hqq := (Bool.and_eq_true _ _ |>.mp h2).2
    rw [hpc, hAq] at hqq
    exact Bool.false_ne_true hqq

/-- Colorless variant of `cntc_two` for the `room_mutex` region. -/
theorem cnt_two {s : Sys} {i : Nat} {c : Color} {tid : Option Nat} {A : PC}
    {q r : PC → Bool} (hth : s.threads[i]? = some ⟨c, A, tid⟩)
    (hApos : r A = true) (hAq : q A = false)
    (hq : ∀ pc, q pc = true → r pc = true)
    (hpos : 0 < cnt s q) : 2 ≤ cnt s r := by
  have h1 : 0 < s.threads.countP fun th => th.pc == A :=
    List.countP_pos_iff.mpr ⟨_, List.getElem?_mem hth, by simp⟩
  have hdisj := countP_disj s.threads
      (fun th => q th.pc) (fun th => th.pc == A) ?_
  · have hmono : s.threads.countP (fun th => q th.pc || th.pc == A)
        ≤ cnt s r := by
      refine List.countP_mono_left ?_
      intro th _ h
      rcases Bool.or_eq_true _ _ |>.mp h with h' | h'
      · exact hq _ h'
      · have hpc : th.pc = A := beq_iff_eq.mp h'
        exact hpc ▸ hApos
    unfold cnt at hpos hmono ⊢
    omega
  · intro a ⟨h2, h3⟩
    have h2' : q a.pc = true := h2
    have hpc : a.pc = A := beq_iff_eq.mp h3
    rw [hpc, hAq] at h2'
    exact Bool.false_ne_true h2'

/-- Two-region variant where the waiting thread has the other color. -/
theorem cnt_two_mixed {s : Sys} {i : Nat} {c : Color} {tid : Option Nat} {A : PC}
    {q r : PC → Bool} (hth : s.threads[i]? = some ⟨c, A, tid⟩)
    (hApos : r A = true) {c' : Color} (hcc : c ≠ c')
    (hq : ∀ pc, q pc = true → r pc = true)
    (hpos : 0 < cntc s c' q) : 2 ≤ cnt s r := by
  have h1 : 0 < s.threads.countP fun th => th.color == c && th.pc == A :=
    List.countP_pos_iff.mpr ⟨_, List.getElem?_mem hth, by simp⟩
  have hdisj := countP_disj s.threads
      (fun th => th.color == c' && q th.pc)
      (fun th => th.color == c && th.pc == A) ?_
  · have hmono : s.threads.countP
        (fun th => (th.color == c' && q th.pc) || (th.color == c && th.pc == A))
          ≤ cnt s r := by
      refine List.countP_mono_left ?_
      intro th _ h
      rcases Bool.or_eq_true _ _ |>.mp h with h' | h'
      · exact hq _ (Bool.and_eq_true _ _ |>.mp h').2
      · have hpc : th.pc = A := beq_iff_eq.mp (Bool.and_eq_true _ _ |>.mp h').2
        exact hpc ▸ hApos
    unfold cntc at hpos
    unfold cnt at hmono ⊢
    omega
  · intro a ⟨h2, h3⟩
    have hc1 : a.color = c' := beq_iff_eq.mp (Bool.and_eq_true _ _ |>.mp h2).1
    have hc2 : a.color = c := beq_iff_eq.mp (Bool.and_eq_true _ _ |>.mp h3).1
    exact hcc (hc2 ▸ hc1)

theorem cnt_pos_of_pc {s : Sys} {i : Nat} {c : Color} {tid : Option Nat}
    {A : PC} (hth : s.threads[i]? = some ⟨c, A, tid⟩)
    {p : PC → Bool} (hA : p A = true) : 0 < cnt s p :=
  List.countP_pos_iff.mpr ⟨_, List.getElem?_mem hth, hA⟩

theorem cntc_pos_of_pc {s : Sys} {i : Nat} {c : Color} {tid : Option Nat}
    {A : PC} (hth : s.threads[i]? = some ⟨c, A, tid⟩)
    {p : PC → Bool} (hA : p A = true) : 0 < cntc s c p := by
  refine List.countP_pos_iff.mpr ⟨_, List.getElem?_mem hth, ?_⟩
  show (c == c && p A) = true
  rw [hA]
  simp

theorem cnt_mono_pc {s : Sys} {p q : PC → Bool}
    (h : ∀ pc, p pc = true → q pc = true) : cnt s p ≤ cnt s q :=
  List.countP_mono_left fun th _ hp => h th.pc hp

theorem cntc_mono_pc {s : Sys} {c : Color} {p q : PC → Bool}
    (h : ∀ pc, p pc = true → q pc = true) : cntc s c p ≤ cntc s c q := by
  refine List.countP_mono_left ?_
  intro th _ hp
  have h1 := (Bool.and_eq_true _ _ |>.mp hp).1
  have h2 := (Bool.and_eq_true _ _ |>.mp hp).2
  exact Bool.and_eq_true _ _ |>.mpr ⟨h1, h th.pc h2⟩

/-- The updated thread is found at its index after the update. -/
theorem threadAt_set {s s' : Sys} {i : Nat} {th : Thread} (th' : Thread)
    (hthreads : s'.threads = s.threads.set i th')
    (hth : s.threads[i]? = some th) : s'.threads[i]? = some th' := by
  rw [hthreads]
  have hlen : i < s.threads.length := (List.getElem?_eq_some_iff.mp hth).1
  exact List.getElem?_set_self (by simpa using hlen)

/-- The `room_mutex` region never holds more than one thread. -/
theorem room_le_one {N : Nat} {s : Sys} (Is : Inv N s) :
    cnt s roomMutexPC ≤ 1 := by
  rw [Is.room]
  cases s.roomMutex <;> simp

/-- A lightswitch's internal-mutex region never holds more than one thread. -/
theorem lsm_le_one {N : Nat} {s : Sys} (Is : Inv N s) (c : Color) :
    cntc s c lsMutexPC ≤ 1 := by
  have := Is.lsm c
  omega

/-! ## Ownership helpers for the exclusion semaphore -/

/-- A thread holding the lightswitch mutex at a pc other than the exclusion
acquire excludes any same-color thread parked at the exclusion acquire. -/
theorem not_pendAcq {N : Nat} {s : Sys} {i : Nat} {c : Color}
    {tid : Option Nat} {A : PC} (Is : Inv N s)
    (hth : s.threads[i]? = some ⟨c, A, tid⟩)
    (hA : lsMutexPC A = true) (hAq : (A == PC.lsAcqBGM) = false) :
    ¬ pendAcq s c := by
  intro hp
  have h2 := cntc_two hth hA hAq (fun pc h => by rw [beq_iff_eq.mp h]; rfl) hp
  have := lsm_le_one Is c
  omega

/-- A thread holding the lightswitch mutex at a pc other than the exclusion
release excludes any same-color thread about to release the exclusion. -/
theorem not_pendRel {N : Nat} {s : Sys} {i : Nat} {c : Color}
    {tid : Option Nat} {A : PC} (Is : Inv N s)
    (hth : s.threads[i]? = some ⟨c, A, tid⟩)
    (hA : lsMutexPC A = true) (hAq : (A == PC.lsRelBGM) = false) :
    ¬ pendRel s c := by
  intro hp
  have h2 := cntc_two hth hA hAq (fun pc h => by rw [beq_iff_eq.mp h]; rfl) hp
  have := lsm_le_one Is c
  omega

/-- The other color never coincides with a color. -/
theorem Color.other_ne (c : Color) : c ≠ c.other := by
  cases c <;> simp [Color.other]

/-- Ownership of the exclusion semaphore by the other color is untouched by a
step of a thread of color `c` that leaves the other color's counter alone. -/
theorem ownsCount_ne_congr {s s' : Sys} {i : Nat} {c : Color}
    {tidA tidB : Option Nat} {A B : PC}
    (hthreads : s'.threads = s.threads.set i ⟨c, B, tidB⟩)
    (hth : s.threads[i]? = some ⟨c, A, tidA⟩)
    (hctr : s'.counter.get c.other = s.counter.get c.other) :
    ownsCount s' c.other = ownsCount s c.other :=
  ownsCount_congr _ hctr
    (pendAcq_congr (cntc_ne hthreads hth (Color.other_ne c) _))
    (pendRel_congr (cntc_ne hthreads hth (Color.other_ne c) _))

/-- The exclusion accounting survives a step that changes neither the
semaphore value nor either color's ownership bit. -/
theorem bgm_update {N : Nat} {s : Sys} (Is : Inv N s) {s' : Sys} (c : Color)
    (hbgm : s'.bgm = s.bgm)
    (hsame : ownsCount s' c = ownsCount s c)
    (hother : ownsCount s' c.other = ownsCount s c.other) :
    s'.bgm + ownsCount s' .blue + ownsCount s' .green = 1 := by
  cases c <;> simp only [Color.other] at hother <;>
    rw [hbgm, hsame, hother] <;> exact Is.bgmInv

/-- The exclusion accounting after color `c` completes its acquire. -/
theorem bgm_acquire {N : Nat} {s : Sys} (Is : Inv N s) {s' : Sys} (c : Color)
    (hcond : s.bgm ≠ 0)
    (hbgm : s'.bgm = s.bgm - 1)
    (h0 : ownsCount s c = 0) (h1 : ownsCount s' c = 1)
    (hother : ownsCount s' c.other = ownsCount s c.other) :
    s'.bgm + ownsCount s' .blue + ownsCount s' .green = 1 := by
  have ht := Is.bgmInv
  cases c <;> simp only [Color.other] at hother <;>
    rw [hbgm, h1, hother] <;> rw [h0] at ht <;> omega

/-- The exclusion accounting after color `c` releases. -/
theorem bgm_release {N : Nat} {s : Sys} (Is : Inv N s) {s' : Sys} (c : Color)
    (hbgm : s'.bgm = s.bgm + 1)
    (h1 : ownsCount s c = 1) (h0 : ownsCount s' c = 0)
    (hother : ownsCount s' c.other = ownsCount s c.other) :
    s'.bgm + ownsCount s' .blue + ownsCount s' .green = 1 := by
  have ht := Is.bgmInv
  cases c <;> simp only [Color.other] at hother <;>
    rw [hbgm, h0, hother] <;> rw [h1] at ht <;> omega

/-! ## Preservation of the invariant, one lemma per statement -/

theorem invStep_acqTurnstile {N : Nat} {s s' : Sys} {i : Nat} {c : Color}
    {tid : Option Nat} (Is : Inv N s)
    (hth : s.threads[i]? = some ⟨c, .acqTurnstile, tid⟩)
    (hcond : s.turnstile ≠ 0)
    (hs' : s' = { s with turnstile := s.turnstile - 1,
                         threads := s.threads.set i ⟨c, .lsAcqMutex, tid⟩ }) :
    Inv N s' := by
  have hthreads : s'.threads = s.threads.set i ⟨c, .lsAcqMutex, tid⟩ := by rw [hs']
  have ncp : ∀ p : PC → Bool, p PC.acqTurnstile = p PC.lsAcqMutex →
      cnt s' p = cnt s p := by
    intro p hp
    unfold cnt
    rw [hthreads]
    exact countP_set_eq _ hth hp
  have ncc : ∀ (c' : Color) (p : PC → Bool), p PC.acqTurnstile = p PC.lsAcqMutex →
      cntc s' c' p = cntc s c' p := by
    intro c' p hp
    unfold cntc
    rw [hthreads]
    refine countP_set_eq _ hth ?_
    show (c == c' && p PC.acqTurnstile) = (c == c' && p PC.lsAcqMutex)
    rw [hp]
  have hpA : ∀ c', pendAcq s' c' ↔ pendAcq s c' :=
    fun c' => pendAcq_congr (ncc c' _ rfl)
  have hpR : ∀ c', pendRel s' c' ↔ pendRel s c' :=
    fun c' => pendRel_congr (ncc c' _ rfl)
  refine ⟨?_, frameLsm Is (by rw [hs']) (fun c' => ncc c' _ rfl),
      frameRoom Is (by rw [hs']) (ncp _ rfl),
      frameSlot Is (by rw [hs']) (fun c' => ncc c' _ rfl),
      frameCtr Is (by rw [hs']) (fun c' => ncc c' _ rfl),
      frameOcc Is (by rw [hs']) (ncp _ rfl),
      frameBgm Is (by rw [hs']) (by rw [hs']) hpA hpR,
      framePa Is (by rw [hs']) hpA, framePr Is (by rw [hs']) hpR,
      frameExit Is (by rw [hs']) (fun c' => ncc c' _ rfl) (fun c' => ncc c' _ rfl),
      frameLogSorted Is (by rw [hs']), frameLogLe Is (by rw [hs']) (by rw [hs']),
      frameLogLt Is (by rw [hs']) (by rw [hs']) (ncp _ rfl)⟩
  · have h : s'.threads.countP (fun th => turnstilePC th.pc)
        = s.threads.countP (fun th => turnstilePC th.pc) + 1 := by
      rw [hthreads]
      exact countP_set_succ _ hth rfl rfl
    have hv : s'.turnstile = s.turnstile - 1 := by rw [hs']
    have ht := Is.turn
    unfold cnt at ht ⊢
    omega

theorem invStep_lsAcqMutex {N : Nat} {s s' : Sys} {i : Nat} {c : Color}
    {tid : Option Nat} (Is : Inv N s)
    (hth : s.threads[i]? = some ⟨c, .lsAcqMutex, tid⟩)
    (hcond : s.lsMutex.get c ≠ 0)
    (hs' : s' = { s with lsMutex := s.lsMutex.set c (s.lsMutex.get c - 1),
                         threads := s.threads.set i ⟨c, .lsInc, tid⟩ }) :
    Inv N s' := by
  have hthreads : s'.threads = s.threads.set i ⟨c, .lsInc, tid⟩ := by rw [hs']
  have hpA : ∀ c', pendAcq s' c' ↔ pendAcq s c' :=
    fun c' => pendAcq_congr
      (cntc_keep hthreads hth (p := fun pc => pc == PC.lsAcqBGM) rfl c')
  have hpR : ∀ c', pendRel s' c' ↔ pendRel s c' :=
    fun c' => pendRel_congr
      (cntc_keep hthreads hth (p := fun pc => pc == PC.lsRelBGM) rfl c')
  refine ⟨frameTurn Is (by rw [hs']) (cnt_keep hthreads hth rfl), ?_,
      frameRoom Is (by rw [hs']) (cnt_keep hthreads hth rfl),
      frameSlot Is (by rw [hs']) (cntc_keep hthreads hth rfl),
      frameCtr Is (by rw [hs']) (cntc_keep hthreads hth rfl),
      frameOcc Is (by rw [hs']) (cnt_keep hthreads hth rfl),
      frameBgm Is (by rw [hs']) (by rw [hs']) hpA hpR,
      framePa Is (by rw [hs']) hpA, framePr Is (by rw [hs']) hpR,
      frameExit Is (by rw [hs']) (cntc_keep hthreads hth rfl)
        (cntc_keep hthreads hth rfl),
      frameLogSorted Is (by rw [hs']), frameLogLe Is (by rw [hs']) (by rw [hs']),
      frameLogLt Is (by rw [hs']) (by rw [hs']) (cnt_keep hthreads hth rfl)⟩
  · intro c'
    by_cases hcc : c = c'
    · have hcount := cntc_succ_same hthreads hth hcc (p := lsMutexPC) rfl rfl
      subst hcc
      have hv : s'.lsMutex.get c = s.lsMutex.get c - 1 := by
        rw [hs']
        exact Duo.get_set_same _ _ _
      have ht := Is.lsm c
      omega
    · have hcount := cntc_ne hthreads hth hcc lsMutexPC
      have hv : s'.lsMutex.get c' = s.lsMutex.get c' := by
        rw [hs']
        exact Duo.get_set_ne _ _ (Ne.symm hcc)
      rw [hv, hcount]
      exact Is.lsm c'

theorem invStep_lsRelMutex {N : Nat} {s s' : Sys} {i : Nat} {c : Color}
    {tid : Option Nat} (Is : Inv N s)
    (hth : s.threads[i]? = some ⟨c, .lsRelMutex, tid⟩)
    (hs' : s' = { s with lsMutex := s.lsMutex.set c (s.lsMutex.get c + 1),
                         threads := s.threads.set i ⟨c, .relTurnstile, tid⟩ }) :
    Inv N s' := by
  have hthreads : s'.threads = s.threads.set i ⟨c, .relTurnstile, tid⟩ := by rw [hs']
  have hpA : ∀ c', pendAcq s' c' ↔ pendAcq s c' :=
    fun c' => pendAcq_congr
      (cntc_keep hthreads hth (p := fun pc => pc == PC.lsAcqBGM) rfl c')
  have hpR : ∀ c', pendRel s' c' ↔ pendRel s c' :=
    fun c' => pendRel_congr
      (cntc_keep hthreads hth (p := fun pc => pc == PC.lsRelBGM) rfl c')
  refine ⟨frameTurn Is (by rw [hs']) (cnt_keep hthreads hth rfl), ?_,
      frameRoom Is (by rw [hs']) (cnt_keep hthreads hth rfl),
      frameSlot Is (by rw [hs']) (cntc_keep hthreads hth rfl),
      frameCtr Is (by rw [hs']) (cntc_keep hthreads hth rfl),
      frameOcc Is (by rw [hs']) (cnt_keep hthreads hth rfl),
      frameBgm Is (by rw [hs']) (by rw [hs']) hpA hpR,
      framePa Is (by rw [hs']) hpA, framePr Is (by rw [hs']) hpR,
      frameExit Is (by rw [hs']) (cntc_keep hthreads hth rfl)
        (cntc_keep hthreads hth rfl),
      frameLogSorted Is (by rw [hs']), frameLogLe Is (by rw [hs']) (by rw [hs']),
      frameLogLt Is (by rw [hs']) (by rw [hs']) (cnt_keep hthreads hth rfl)⟩
  · intro c'
    by_cases hcc : c = c'
    · have hcount := cntc_pred_same hthreads hth hcc (p := lsMutexPC) rfl rfl
      subst hcc
      have hv : s'.lsMutex.get c = s.lsMutex.get c + 1 := by
        rw [hs']
        exact Duo.get_set_same _ _ _
      have hpos := cntc_pos_of_pc hth (p := lsMutexPC) rfl
      have ht := Is.lsm c
      omega
    · have hcount := cntc_ne hthreads hth hcc lsMutexPC
      have hv : s'.lsMutex.get c' = s.lsMutex.get c' := by
        rw [hs']
        exact Duo.get_set_ne _ _ (Ne.symm hcc)
      rw [hv, hcount]
      exact Is.lsm c'

theorem invStep_relTurnstile {N : Nat} {s s' : Sys} {i : Nat} {c : Color}
    {tid : Option Nat} (Is : Inv N s)
    (hth : s.threads[i]? = some ⟨c, .relTurnstile, tid⟩)
    (hs' : s' = { s with turnstile := s.turnstile + 1,
                         threads := s.threads.set i ⟨c, .acqSlots, tid⟩ }) :
    Inv N s' := by
  have hthreads : s'.threads = s.threads.set i ⟨c, .acqSlots, tid⟩ := by rw [hs']
  have hpA : ∀ c', pendAcq s' c' ↔ pendAcq s c' :=
    fun c' => pendAcq_congr
      (cntc_keep hthreads hth (p := fun pc => pc == PC.lsAcqBGM) rfl c')
  have hpR : ∀ c', pendRel s' c' ↔ pendRel s c' :=
    fun c' => pendRel_congr
      (cntc_keep hthreads hth (p := fun pc => pc == PC.lsRelBGM) rfl c')
  refine ⟨?_, frameLsm Is (by rw [hs']) (cntc_keep hthreads hth rfl),
      frameRoom Is (by rw [hs']) (cnt_keep hthreads hth rfl),
      frameSlot Is (by rw [hs']) (cntc_keep hthreads hth rfl),
      frameCtr Is (by rw [hs']) (cntc_keep hthreads hth rfl),
      frameOcc Is (by rw [hs']) (cnt_keep hthreads hth rfl),
      frameBgm Is (by rw [hs']) (by rw [hs']) hpA hpR,
      framePa Is (by rw [hs']) hpA, framePr Is (by rw [hs']) hpR,
      frameExit Is (by rw [hs']) (cntc_keep hthreads hth rfl)
        (cntc_keep hthreads hth rfl),
      frameLogSorted Is (by rw [hs']), frameLogLe Is (by rw [hs']) (by rw [hs']),
      frameLogLt Is (by rw [hs']) (by rw [hs']) (cnt_keep hthreads hth rfl)⟩
  · have hcount := cnt_pred hthreads hth (p := turnstilePC) rfl rfl
    have hpos := cnt_pos_of_pc hth (p := turnstilePC) rfl
    have hv : s'.turnstile = s.turnstile + 1 := by rw [hs']
    have ht := Is.turn
    omega

theorem invStep_lsUnlAcqMutex {N : Nat} {s s' : Sys} {i : Nat} {c : Color}
    {tid : Option Nat} (Is : Inv N s)
    (hth : s.threads[i]? = some ⟨c, .lsUnlAcqMutex, tid⟩)
    (hcond : s.lsMutex.get c ≠ 0)
    (hs' : s' = { s with lsMutex := s.lsMutex.set c (s.lsMutex.get c - 1),
                         threads := s.threads.set i ⟨c, .lsDec, tid⟩ }) :
    Inv N s' := by
  have hthreads : s'.threads = s.threads.set i ⟨c, .lsDec, tid⟩ := by rw [hs']
  have hpA : ∀ c', pendAcq s' c' ↔ pendAcq s c' :=
    fun c' => pendAcq_congr
      (cntc_keep hthreads hth (p := fun pc => pc == PC.lsAcqBGM) rfl c')
  have hpR : ∀ c', pendRel s' c' ↔ pendRel s c' :=
    fun c' => pendRel_congr
      (cntc_keep hthreads hth (p := fun pc => pc == PC.lsRelBGM) rfl c')
  refine ⟨frameTurn Is (by rw [hs']) (cnt_keep hthreads hth rfl), ?_,
      frameRoom Is (by rw [hs']) (cnt_keep hthreads hth rfl),
      frameSlot Is (by rw [hs']) (cntc_keep hthreads hth rfl),
      frameCtr Is (by rw [hs']) (cntc_keep hthreads hth rfl),
      frameOcc Is (by rw [hs']) (cnt_keep hthreads hth rfl),
      frameBgm Is (by rw [hs']) (by rw [hs']) hpA hpR,
      framePa Is (by rw [hs']) hpA, framePr Is (by rw [hs']) hpR,
      frameExit Is (by rw [hs']) (cntc_keep hthreads hth rfl)
        (cntc_keep hthreads hth rfl),
      frameLogSorted Is (by rw [hs']), frameLogLe Is (by rw [hs']) (by rw [hs']),
      frameLogLt Is (by rw [hs']) (by rw [hs']) (cnt_keep hthreads hth rfl)⟩
  · intro c'
    by_cases hcc : c = c'
    · have hcount := cntc_succ_same hthreads hth hcc (p := lsMutexPC) rfl rfl
      subst hcc
      have hv : s'.lsMutex.get c = s.lsMutex.get c - 1 := by
        rw [hs']
        exact Duo.get_set_same _ _ _
      have ht := Is.lsm c
      omega
    · have hcount := cntc_ne hthreads hth hcc lsMutexPC
      have hv : s'.lsMutex.get c' = s.lsMutex.get c' := by
        rw [hs']
        exact Duo.get_set_ne _ _ (Ne.symm hcc)
      rw [hv, hcount]
      exact Is.lsm c'

theorem invStep_lsUnlRelMutex {N : Nat} {s s' : Sys} {i : Nat} {c : Color}
    {tid : Option Nat} (Is : Inv N s)
    (hth : s.threads[i]? = some ⟨c, .lsUnlRelMutex, tid⟩)
    (hs' : s' = { s with lsMutex := s.lsMutex.set c (s.lsMutex.get c + 1),
                         threads := s.threads.set i ⟨c, .done, tid⟩ }) :
    Inv N s' := by
  have hthreads : s'.threads = s.threads.set i ⟨c, .done, tid⟩ := by rw [hs']
  have hpA : ∀ c', pendAcq s' c' ↔ pendAcq s c' :=
    fun c' => pendAcq_congr
      (cntc_keep hthreads hth (p := fun pc => pc == PC.lsAcqBGM) rfl c')
  have hpR : ∀ c', pendRel s' c' ↔ pendRel s c' :=
    fun c' => pendRel_congr
      (cntc_keep hthreads hth (p := fun pc => pc == PC.lsRelBGM) rfl c')
  refine ⟨frameTurn Is (by rw [hs']) (cnt_keep hthreads hth rfl), ?_,
      frameRoom Is (by rw [hs']) (cnt_keep hthreads hth rfl),
      frameSlot Is (by rw [hs']) (cntc_keep hthreads hth rfl),
      frameCtr Is (by rw [hs']) (cntc_keep hthreads hth rfl),
      frameOcc Is (by rw [hs']) (cnt_keep hthreads hth rfl),
      frameBgm Is (by rw [hs']) (by rw [hs']) hpA hpR,
      framePa Is (by rw [hs']) hpA, framePr Is (by rw [hs']) hpR,
      frameExit Is (by rw [hs']) (cntc_keep hthreads hth rfl)
        (cntc_keep hthreads hth rfl),
      frameLogSorted Is (by rw [hs']), frameLogLe Is (by rw [hs']) (by rw [hs']),
      frameLogLt Is (by rw [hs']) (by rw [hs']) (cnt_keep hthreads hth rfl)⟩
  · intro c'
    by_cases hcc : c = c'
    · have hcount := cntc_pred_same hthreads hth hcc (p := lsMutexPC) rfl rfl
      subst hcc
      have hv : s'.lsMutex.get c = s.lsMutex.get c + 1 := by
        rw [hs']
        exact Duo.get_set_same _ _ _
      have hpos := cntc_pos_of_pc hth (p := lsMutexPC) rfl
      have ht := Is.lsm c
      omega
    · have hcount := cntc_ne hthreads hth hcc lsMutexPC
      have hv : s'.lsMutex.get c' = s.lsMutex.get c' := by
        rw [hs']
        exact Duo.get_set_ne _ _ (Ne.symm hcc)
      rw [hv, hcount]
      exact Is.lsm c'

theorem invStep_acqSlots {N : Nat} {s s' : Sys} {i : Nat} {c : Color}
    {tid : Option Nat} (Is : Inv N s)
    (hth : s.threads[i]? = some ⟨c, .acqSlots, tid⟩)
    (hcond : s.slots.get c ≠ 0)
    (hs' : s' = { s with slots := s.slots.set c (s.slots.get c - 1),
                         threads := s.threads.set i ⟨c, .acqRoomMutex1, tid⟩ }) :
    Inv N s' := by
  have hthreads : s'.threads = s.threads.set i ⟨c, .acqRoomMutex1, tid⟩ := by
    rw [hs']
  have hpA : ∀ c', pendAcq s' c' ↔ pendAcq s c' :=
    fun c' => pendAcq_congr
      (cntc_keep hthreads hth (p := fun pc => pc == PC.lsAcqBGM) rfl c')
  have hpR : ∀ c', pendRel s' c' ↔ pendRel s c' :=
    fun c' => pendRel_congr
      (cntc_keep hthreads hth (p := fun pc => pc == PC.lsRelBGM) rfl c')
  refine ⟨frameTurn Is (by rw [hs']) (cnt_keep hthreads hth rfl),
      frameLsm Is (by rw [hs']) (cntc_keep hthreads hth rfl),
      frameRoom Is (by rw [hs']) (cnt_keep hthreads hth rfl), ?_,
      frameCtr Is (by rw [hs']) (cntc_keep hthreads hth rfl),
      frameOcc Is (by rw [hs']) (cnt_keep hthreads hth rfl),
      frameBgm Is (by rw [hs']) (by rw [hs']) hpA hpR,
      framePa Is (by rw [hs']) hpA, framePr Is (by rw [hs']) hpR, ?_,
      frameLogSorted Is (by rw [hs']), frameLogLe Is (by rw [hs']) (by rw [hs']),
      frameLogLt Is (by rw [hs']) (by rw [hs']) (cnt_keep hthreads hth rfl)⟩
  · intro c'
    by_cases hcc : c = c'
    · have hcount := cntc_succ_same hthreads hth hcc (p := holdsSlotPC) rfl rfl
      subst hcc
      have hv : s'.slots.get c = s.slots.get c - 1 := by
        rw [hs']
        exact Duo.get_set_same _ _ _
      have ht := Is.slot c
      omega
    · have hcount := cntc_ne hthreads hth hcc holdsSlotPC
      have hv : s'.slots.get c' = s.slots.get c' := by
        rw [hs']
        exact Duo.get_set_ne _ _ (Ne.symm hcc)
      rw [hv, hcount]
      exact Is.slot c'
  · intro c' hp
    have hdec := cntc_keep hthreads hth
      (p := fun pc => pc == PC.decRoomCtr) rfl c'
    rw [hdec] at hp
    have ht := Is.exitSlot c' hp
    by_cases hcc : c = c'
    · have hent := cntc_succ_same hthreads hth hcc (p := enteringPC) rfl rfl
      subst hcc
      have hv : s'.slots.get c = s.slots.get c - 1 := by
        rw [hs']
        exact Duo.get_set_same _ _ _
      omega
    · have hent := cntc_ne hthreads hth hcc enteringPC
      have hv : s'.slots.get c' = s.slots.get c' := by
        rw [hs']
        exact Duo.get_set_ne _ _ (Ne.symm hcc)
      omega

theorem invStep_acqRoomMutex1 {N : Nat} {s s' : Sys} {i : Nat} {c : Color}
    {tid : Option Nat} (Is : Inv N s)
    (hth : s.threads[i]? = some ⟨c, .acqRoomMutex1, tid⟩)
    (hcond : s.roomMutex = false)
    (hs' : s' = { s with roomMutex := true,
                         threads := s.threads.set i ⟨c, .incThreadId, tid⟩ }) :
    Inv N s' := by
  have hthreads : s'.threads = s.threads.set i ⟨c, .incThreadId, tid⟩ := by
    rw [hs']
  have hpA : ∀ c', pendAcq s' c' ↔ pendAcq s c' :=
    fun c' => pendAcq_congr
      (cntc_keep hthreads hth (p := fun pc => pc == PC.lsAcqBGM) rfl c')
  have hpR : ∀ c', pendRel s' c' ↔ pendRel s c' :=
    fun c' => pendRel_congr
      (cntc_keep hthreads hth (p := fun pc => pc == PC.lsRelBGM) rfl c')
  refine ⟨frameTurn Is (by rw [hs']) (cnt_keep hthreads hth rfl),
      frameLsm Is (by rw [hs']) (cntc_keep hthreads hth rfl), ?_,
      frameSlot Is (by rw [hs']) (cntc_keep hthreads hth rfl),
      frameCtr Is (by rw [hs']) (cntc_keep hthreads hth rfl),
      frameOcc Is (by rw [hs']) (cnt_keep hthreads hth rfl),
      frameBgm Is (by rw [hs']) (by rw [hs']) hpA hpR,
      framePa Is (by rw [hs']) hpA, framePr Is (by rw [hs']) hpR,
      frameExit Is (by rw [hs']) (cntc_keep hthreads hth rfl)
        (cntc_keep hthreads hth rfl),
      frameLogSorted Is (by rw [hs']), frameLogLe Is (by rw [hs']) (by rw [hs']),
      frameLogLt Is (by rw [hs']) (by rw [hs']) (cnt_keep hthreads hth rfl)⟩
  · have hcount := cnt_succ hthreads hth (p := roomMutexPC) rfl rfl
    have hv : s'.roomMutex = true := by rw [hs']
    have ht := Is.room
    rw [hcond] at ht
    simp only [Bool.false_eq_true, if_false] at ht
    rw [hv, hcount, ht]
    simp

theorem invStep_incThreadId {N : Nat} {s s' : Sys} {i : Nat} {c : Color}
    {tid : Option Nat} (Is : Inv N s)
    (hth : s.threads[i]? = some ⟨c, .incThreadId, tid⟩)
    (hs' : s' = { s with threadId := s.threadId + 1,
                         threads := s.threads.set i ⟨c, .incRoomCtr, tid⟩ }) :
    Inv N s' := by
  have hthreads : s'.threads = s.threads.set i ⟨c, .incRoomCtr, tid⟩ := by
    rw [hs']
  have hpA : ∀ c', pendAcq s' c' ↔ pendAcq s c' :=
    fun c' => pendAcq_congr
      (cntc_keep hthreads hth (p := fun pc => pc == PC.lsAcqBGM) rfl c')
  have hpR : ∀ c', pendRel s' c' ↔ pendRel s c' :=
    fun c' => pendRel_congr
      (cntc_keep hthreads hth (p := fun pc => pc == PC.lsRelBGM) rfl c')
  have hlog : s'.log = s.log := by rw [hs']
  have hid : s'.threadId = s.threadId + 1 := by rw [hs']
  refine ⟨frameTurn Is (by rw [hs']) (cnt_keep hthreads hth rfl),
      frameLsm Is (by rw [hs']) (cntc_keep hthreads hth rfl),
      frameRoom Is (by rw [hs']) (cnt_keep hthreads hth rfl),
      frameSlot Is (by rw [hs']) (cntc_keep hthreads hth rfl),
      frameCtr Is (by rw [hs']) (cntc_keep hthreads hth rfl),
      frameOcc Is (by rw [hs']) (cnt_keep hthreads hth rfl),
      frameBgm Is (by rw [hs']) (by rw [hs']) hpA hpR,
      framePa Is (by rw [hs']) hpA, framePr Is (by rw [hs']) hpR,
      frameExit Is (by rw [hs']) (cntc_keep hthreads hth rfl)
        (cntc_keep hthreads hth rfl),
      frameLogSorted Is (by rw [hs']), ?_, ?_⟩
  · rw [hlog, hid]
    intro x hx
    have := Is.logLe x hx
    omega
  · intro _
    rw [hlog, hid]
    intro x hx
    have := Is.logLe x hx
    omega

theorem invStep_incRoomCtr {N : Nat} {s s' : Sys} {i : Nat} {c : Color}
    {tid : Option Nat} (Is : Inv N s)
    (hth : s.threads[i]? = some ⟨c, .incRoomCtr, tid⟩)
    (hs' : s' = { s with roomCtr := s.roomCtr + 1,
                         threads := s.threads.set i ⟨c, .setTid, tid⟩ }) :
    Inv N s' := by
  have hthreads : s'.threads = s.threads.set i ⟨c, .setTid, tid⟩ := by rw [hs']
  have hpA : ∀ c', pendAcq s' c' ↔ pendAcq s c' :=
    fun c' => pendAcq_congr
      (cntc_keep hthreads hth (p := fun pc => pc == PC.lsAcqBGM) rfl c')
  have hpR : ∀ c', pendRel s' c' ↔ pendRel s c' :=
    fun c' => pendRel_congr
      (cntc_keep hthreads hth (p := fun pc => pc == PC.lsRelBGM) rfl c')
  refine ⟨frameTurn Is (by rw [hs']) (cnt_keep hthreads hth rfl),
      frameLsm Is (by rw [hs']) (cntc_keep hthreads hth rfl),
      frameRoom Is (by rw [hs']) (cnt_keep hthreads hth rfl),
      frameSlot Is (by rw [hs']) (cntc_keep hthreads hth rfl),
      frameCtr Is (by rw [hs']) (cntc_keep hthreads hth rfl), ?_,
      frameBgm Is (by rw [hs']) (by rw [hs']) hpA hpR,
      framePa Is (by rw [hs']) hpA, framePr Is (by rw [hs']) hpR, ?_,
      frameLogSorted Is (by rw [hs']), frameLogLe Is (by rw [hs']) (by rw [hs']),
      frameLogLt Is (by rw [hs']) (by rw [hs']) (cnt_keep hthreads hth rfl)⟩
  · have hcount := cnt_succ hthreads hth (p := inRoomPC) rfl rfl
    have hv : s'.roomCtr = s.roomCtr + 1 := by rw [hs']
    have ht := Is.occ
    rw [hv, hcount, ht]
    push_cast
    ring
  · intro c' hp
    have hdec := cntc_keep hthreads hth
      (p := fun pc => pc == PC.decRoomCtr) rfl c'
    rw [hdec] at hp
    have hcnt : 0 < cnt s (fun pc => pc == PC.decRoomCtr) :=
      lt_of_lt_of_le hp (cntc_le_cnt s c' _)
    have h2 := cnt_two hth (r := roomMutexPC) rfl rfl
      (fun pc h => by rw [beq_iff_eq.mp h]; rfl) hcnt
    have hle := room_le_one Is
    omega

theorem invStep_setTid {N : Nat} {s s' : Sys} {i : Nat} {c : Color}
    {tid : Option Nat} (Is : Inv N s)
    (hth : s.threads[i]? = some ⟨c, .setTid, tid⟩)
    (hs' : s' = { s with threads := s.threads.set i
                            ⟨c, .relRoomMutex1, some s.threadId⟩,
                         log := s.log ++ [s.threadId] }) :
    Inv N s' := by
  have hthreads : s'.threads = s.threads.set i ⟨c, .relRoomMutex1, some s.threadId⟩ := by
    rw [hs']
  have hpA : ∀ c', pendAcq s' c' ↔ pendAcq s c' :=
    fun c' => pendAcq_congr
      (cntc_keep hthreads hth (p := fun pc => pc == PC.lsAcqBGM) rfl c')
  have hpR : ∀ c', pendRel s' c' ↔ pendRel s c' :=
    fun c' => pendRel_congr
      (cntc_keep hthreads hth (p := fun pc => pc == PC.lsRelBGM) rfl c')
  have hlog : s'.log = s.log ++ [s.threadId] := by rw [hs']
  have hid : s'.threadId = s.threadId := by rw [hs']
  have hmid : 0 < cnt s midTidPC := cnt_pos_of_pc hth (p := midTidPC) rfl
  have hlt := Is.logLt hmid
  refine ⟨frameTurn Is (by rw [hs']) (cnt_keep hthreads hth rfl),
      frameLsm Is (by rw [hs']) (cntc_keep hthreads hth rfl),
      frameRoom Is (by rw [hs']) (cnt_keep hthreads hth rfl),
      frameSlot Is (by rw [hs']) (cntc_keep hthreads hth rfl),
      frameCtr Is (by rw [hs']) (cntc_keep hthreads hth rfl),
      frameOcc Is (by rw [hs']) (cnt_keep hthreads hth rfl),
      frameBgm Is (by rw [hs']) (by rw [hs']) hpA hpR,
      framePa Is (by rw [hs']) hpA, framePr Is (by rw [hs']) hpR,
      frameExit Is (by rw [hs']) (cntc_keep hthreads hth rfl)
        (cntc_keep hthreads hth rfl), ?_, ?_, ?_⟩
  · rw [hlog, List.pairwise_append]
    refine ⟨Is.logSorted, List.pairwise_singleton _ _, ?_⟩
    intro x hx y hy
    rw [List.mem_singleton] at hy
    subst hy
    exact hlt x hx
  · rw [hlog, hid]
    intro x hx
    rcases List.mem_append.mp hx with hx' | hx'
    · exact Is.logLe x hx'
    · rw [List.mem_singleton] at hx'
      omega
  · intro hp
    have hcount := cnt_pred hthreads hth (p := midTidPC) rfl rfl
    have hmono : cnt s midTidPC ≤ cnt s roomMutexPC :=
      cnt_mono_pc (by decide)
    have hle := room_le_one Is
    exact (show False by omega).elim

theorem invStep_relRoomMutex1 {N : Nat} {s s' : Sys} {i : Nat} {c : Color}
    {tid : Option Nat} (Is : Inv N s)
    (hth : s.threads[i]? = some ⟨c, .relRoomMutex1, tid⟩)
    (hs' : s' = { s with roomMutex := false,
                         threads := s.threads.set i ⟨c, .acqRoomMutex2, tid⟩ }) :
    Inv N s' := by
  have hthreads : s'.threads = s.threads.set i ⟨c, .acqRoomMutex2, tid⟩ := by
    rw [hs']
  have hpA : ∀ c', pendAcq s' c' ↔ pendAcq s c' :=
    fun c' => pendAcq_congr
      (cntc_keep hthreads hth (p := fun pc => pc == PC.lsAcqBGM) rfl c')
  have hpR : ∀ c', pendRel s' c' ↔ pendRel s c' :=
    fun c' => pendRel_congr
      (cntc_keep hthreads hth (p := fun pc => pc == PC.lsRelBGM) rfl c')
  refine ⟨frameTurn Is (by rw [hs']) (cnt_keep hthreads hth rfl),
      frameLsm Is (by rw [hs']) (cntc_keep hthreads hth rfl), ?_,
      frameSlot Is (by rw [hs']) (cntc_keep hthreads hth rfl),
      frameCtr Is (by rw [hs']) (cntc_keep hthreads hth rfl),
      frameOcc Is (by rw [hs']) (cnt_keep hthreads hth rfl),
      frameBgm Is (by rw [hs']) (by rw [hs']) hpA hpR,
      framePa Is (by rw [hs']) hpA, framePr Is (by rw [hs']) hpR,
      frameExit Is (by rw [hs']) (cntc_keep hthreads hth rfl)
        (cntc_keep hthreads hth rfl),
      frameLogSorted Is (by rw [hs']), frameLogLe Is (by rw [hs']) (by rw [hs']),
      frameLogLt Is (by rw [hs']) (by rw [hs']) (cnt_keep hthreads hth rfl)⟩
  · have hcount := cnt_pred hthreads hth (p := roomMutexPC) rfl rfl
    have hpos := cnt_pos_of_pc hth (p := roomMutexPC) rfl
    have ht := Is.room
    have hv : s'.roomMutex = false := by rw [hs']
    rw [hv]
    simp only [Bool.false_eq_true, if_false]
    cases hrm : s.roomMutex <;> rw [hrm] at ht <;> simp at ht <;> omega

theorem invStep_acqRoomMutex2 {N : Nat} {s s' : Sys} {i : Nat} {c : Color}
    {tid : Option Nat} (Is : Inv N s)
    (hth : s.threads[i]? = some ⟨c, .acqRoomMutex2, tid⟩)
    (hcond : s.roomMutex = false)
    (hs' : s' = { s with roomMutex := true,
                         threads := s.threads.set i ⟨c, .relSlots, tid⟩ }) :
    Inv N s' := by
  have hthreads : s'.threads = s.threads.set i ⟨c, .relSlots, tid⟩ := by
    rw [hs']
  have hpA : ∀ c', pendAcq s' c' ↔ pendAcq s c' :=
    fun c' => pendAcq_congr
      (cntc_keep hthreads hth (p := fun pc => pc == PC.lsAcqBGM) rfl c')
  have hpR : ∀ c', pendRel s' c' ↔ pendRel s c' :=
    fun c' => pendRel_congr
      (cntc_keep hthreads hth (p := fun pc => pc == PC.lsRelBGM) rfl c')
  refine ⟨frameTurn Is (by rw [hs']) (cnt_keep hthreads hth rfl),
      frameLsm Is (by rw [hs']) (cntc_keep hthreads hth rfl), ?_,
      frameSlot Is (by rw [hs']) (cntc_keep hthreads hth rfl),
      frameCtr Is (by rw [hs']) (cntc_keep hthreads hth rfl),
      frameOcc Is (by rw [hs']) (cnt_keep hthreads hth rfl),
      frameBgm Is (by rw [hs']) (by rw [hs']) hpA hpR,
      framePa Is (by rw [hs']) hpA, framePr Is (by rw [hs']) hpR,
      frameExit Is (by rw [hs']) (cntc_keep hthreads hth rfl)
        (cntc_keep hthreads hth rfl),
      frameLogSorted Is (by rw [hs']), frameLogLe Is (by rw [hs']) (by rw [hs']),
      frameLogLt Is (by rw [hs']) (by rw [hs']) (cnt_keep hthreads hth rfl)⟩
  · have hcount := cnt_succ hthreads hth (p := roomMutexPC) rfl rfl
    have hv : s'.roomMutex = true := by rw [hs']
    have ht := Is.room
    rw [hcond] at ht
    simp only [Bool.false_eq_true, if_false] at ht
    rw [hv, hcount, ht]
    simp

theorem invStep_relSlots {N : Nat} {s s' : Sys} {i : Nat} {c : Color}
    {tid : Option Nat} (Is : Inv N s)
    (hth : s.threads[i]? = some ⟨c, .relSlots, tid⟩)
    (hs' : s' = { s with slots := s.slots.set c (s.slots.get c + 1),
                         threads := s.threads.set i ⟨c, .decRoomCtr, tid⟩ }) :
    Inv N s' := by
  have hthreads : s'.threads = s.threads.set i ⟨c, .decRoomCtr, tid⟩ := by
    rw [hs']
  have hpA : ∀ c', pendAcq s' c' ↔ pendAcq s c' :=
    fun c' => pendAcq_congr
      (cntc_keep hthreads hth (p := fun pc => pc == PC.lsAcqBGM) rfl c')
  have hpR : ∀ c', pendRel s' c' ↔ pendRel s c' :=
    fun c' => pendRel_congr
      (cntc_keep hthreads hth (p := fun pc => pc == PC.lsRelBGM) rfl c')
  refine ⟨frameTurn Is (by rw [hs']) (cnt_keep hthreads hth rfl),
      frameLsm Is (by rw [hs']) (cntc_keep hthreads hth rfl),
      frameRoom Is (by rw [hs']) (cnt_keep hthreads hth rfl), ?_,
      frameCtr Is (by rw [hs']) (cntc_keep hthreads hth rfl),
      frameOcc Is (by rw [hs']) (cnt_keep hthreads hth rfl),
      frameBgm Is (by rw [hs']) (by rw [hs']) hpA hpR,
      framePa Is (by rw [hs']) hpA, framePr Is (by rw [hs']) hpR, ?_,
      frameLogSorted Is (by rw [hs']), frameLogLe Is (by rw [hs']) (by rw [hs']),
      frameLogLt Is (by rw [hs']) (by rw [hs']) (cnt_keep hthreads hth rfl)⟩
  · intro c'
    by_cases hcc : c = c'
    · have hcount := cntc_pred_same hthreads hth hcc (p := holdsSlotPC) rfl rfl
      subst hcc
      have hv : s'.slots.get c = s.slots.get c + 1 := by
        rw [hs']
        exact Duo.get_set_same _ _ _
      have hpos := cntc_pos_of_pc hth (p := holdsSlotPC) rfl
      have ht := Is.slot c
      omega
    · have hcount := cntc_ne hthreads hth hcc holdsSlotPC
      have hv : s'.slots.get c' = s.slots.get c' := by
        rw [hs']
        exact Duo.get_set_ne _ _ (Ne.symm hcc)
      rw [hv, hcount]
      exact Is.slot c'
  · intro c' hp
    by_cases hcc : c = c'
    · subst hcc
      have hv : s'.slots.get c = s.slots.get c + 1 := by
        rw [hs']
        exact Duo.get_set_same _ _ _
      omega
    · have hdec := cntc_ne hthreads hth hcc (fun pc => pc == PC.decRoomCtr)
      rw [hdec] at hp
      have h2 := cnt_two_mixed hth (r := roomMutexPC) rfl hcc
        (fun pc h => by rw [beq_iff_eq.mp h]; rfl) hp
      have hle := room_le_one Is
      omega

theorem invStep_decRoomCtr {N : Nat} {s s' : Sys} {i : Nat} {c : Color}
    {tid : Option Nat} (Is : Inv N s)
    (hth : s.threads[i]? = some ⟨c, .decRoomCtr, tid⟩)
    (hs' : s' = { s with roomCtr := s.roomCtr - 1,
                         threads := s.threads.set i ⟨c, .relRoomMutex2, tid⟩ }) :
    Inv N s' := by
  have hthreads : s'.threads = s.threads.set i ⟨c, .relRoomMutex2, tid⟩ := by
    rw [hs']
  have hpA : ∀ c', pendAcq s' c' ↔ pendAcq s c' :=
    fun c' => pendAcq_congr
      (cntc_keep hthreads hth (p := fun pc => pc == PC.lsAcqBGM) rfl c')
  have hpR : ∀ c', pendRel s' c' ↔ pendRel s c' :=
    fun c' => pendRel_congr
      (cntc_keep hthreads hth (p := fun pc => pc == PC.lsRelBGM) rfl c')
  refine ⟨frameTurn Is (by rw [hs']) (cnt_keep hthreads hth rfl),
      frameLsm Is (by rw [hs']) (cntc_keep hthreads hth rfl),
      frameRoom Is (by rw [hs']) (cnt_keep hthreads hth rfl),
      frameSlot Is (by rw [hs']) (cntc_keep hthreads hth rfl),
      frameCtr Is (by rw [hs']) (cntc_keep hthreads hth rfl), ?_,
      frameBgm Is (by rw [hs']) (by rw [hs']) hpA hpR,
      framePa Is (by rw [hs']) hpA, framePr Is (by rw [hs']) hpR, ?_,
      frameLogSorted Is (by rw [hs']), frameLogLe Is (by rw [hs']) (by rw [hs']),
      frameLogLt Is (by rw [hs']) (by rw [hs']) (cnt_keep hthreads hth rfl)⟩
  · have hcount := cnt_pred hthreads hth (p := inRoomPC) rfl rfl
    have hv : s'.roomCtr = s.roomCtr - 1 := by rw [hs']
    have ht := Is.occ
    rw [hv, ht]
    omega
  · intro c' hp
    by_cases hcc : c = c'
    · have hcount := cntc_pred_same hthreads hth hcc
        (p := fun pc => pc == PC.decRoomCtr) rfl rfl
      subst hcc
      have hle := room_le_one Is
      have hmono3 : cntc s c (fun pc => pc == PC.decRoomCtr)
          ≤ cnt s (fun pc => pc == PC.decRoomCtr) := cntc_le_cnt _ _ _
      have hmono4 : cnt s (fun pc => pc == PC.decRoomCtr) ≤ cnt s roomMutexPC :=
        cnt_mono_pc (by decide)
      omega
    · have hdec := cntc_ne hthreads hth hcc (fun pc => pc == PC.decRoomCtr)
      rw [hdec] at hp
      have h2 := cnt_two_mixed hth (r := roomMutexPC) rfl hcc
        (fun pc h => by rw [beq_iff_eq.mp h]; rfl) hp
      have hle := room_le_one Is
      omega

theorem invStep_relRoomMutex2 {N : Nat} {s s' : Sys} {i : Nat} {c : Color}
    {tid : Option Nat} (Is : Inv N s)
    (hth : s.threads[i]? = some ⟨c, .relRoomMutex2, tid⟩)
    (hs' : s' = { s with roomMutex := false,
                         threads := s.threads.set i ⟨c, .lsUnlAcqMutex, tid⟩ }) :
    Inv N s' := by
  have hthreads : s'.threads = s.threads.set i ⟨c, .lsUnlAcqMutex, tid⟩ := by
    rw [hs']
  have hpA : ∀ c', pendAcq s' c' ↔ pendAcq s c' :=
    fun c' => pendAcq_congr
      (cntc_keep hthreads hth (p := fun pc => pc == PC.lsAcqBGM) rfl c')
  have hpR : ∀ c', pendRel s' c' ↔ pendRel s c' :=
    fun c' => pendRel_congr
      (cntc_keep hthreads hth (p := fun pc => pc == PC.lsRelBGM) rfl c')
  refine ⟨frameTurn Is (by rw [hs']) (cnt_keep hthreads hth rfl),
      frameLsm Is (by rw [hs']) (cntc_keep hthreads hth rfl), ?_,
      frameSlot Is (by rw [hs']) (cntc_keep hthreads hth rfl),
      frameCtr Is (by rw [hs']) (cntc_keep hthreads hth rfl),
      frameOcc Is (by rw [hs']) (cnt_keep hthreads hth rfl),
      frameBgm Is (by rw [hs']) (by rw [hs']) hpA hpR,
      framePa Is (by rw [hs']) hpA, framePr Is (by rw [hs']) hpR,
      frameExit Is (by rw [hs']) (cntc_keep hthreads hth rfl)
        (cntc_keep hthreads hth rfl),
      frameLogSorted Is (by rw [hs']), frameLogLe Is (by rw [hs']) (by rw [hs']),
      frameLogLt Is (by rw [hs']) (by rw [hs']) (cnt_keep hthreads hth rfl)⟩
  · have hcount := cnt_pred hthreads hth (p := roomMutexPC) rfl rfl
    have hpos := cnt_pos_of_pc hth (p := roomMutexPC) rfl
    have ht := Is.room
    have hv : s'.roomMutex = false := by rw [hs']
    rw [hv]
    simp only [Bool.false_eq_true, if_false]
    cases hrm : s.roomMutex <;> rw [hrm] at ht <;> simp at ht <;> omega

theorem invStep_lsInc1 {N : Nat} {s s' : Sys} {i : Nat} {c : Color}
    {tid : Option Nat} (Is : Inv N s)
    (hth : s.threads[i]? = some ⟨c, .lsInc, tid⟩)
    (hk : s.counter.get c = 0)
    (hs' : s' = { s with counter := s.counter.set c (s.counter.get c + 1),
                         threads := s.threads.set i ⟨c, .lsAcqBGM, tid⟩ }) :
    Inv N s' := by
  have hthreads : s'.threads = s.threads.set i ⟨c, .lsAcqBGM, tid⟩ := by rw [hs']
  have hth' := threadAt_set (⟨c, .lsAcqBGM, tid⟩ : Thread) hthreads hth
  have hvc : s'.counter.get c = s.counter.get c + 1 := by
    rw [hs']
    exact Duo.get_set_same _ _ _
  have hctrO : s'.counter.get c.other = s.counter.get c.other := by
    rw [hs']
    exact Duo.get_set_ne _ _ (Ne.symm (Color.other_ne c))
  have hothers := ownsCount_ne_congr hthreads hth hctrO
  have hnA := not_pendAcq (A := .lsInc) Is hth rfl rfl
  have hnR := not_pendRel (A := .lsInc) Is hth rfl rfl
  refine ⟨frameTurn Is (by rw [hs']) (cnt_keep hthreads hth rfl),
      frameLsm Is (by rw [hs']) (cntc_keep hthreads hth rfl),
      frameRoom Is (by rw [hs']) (cnt_keep hthreads hth rfl),
      frameSlot Is (by rw [hs']) (cntc_keep hthreads hth rfl), ?_,
      frameOcc Is (by rw [hs']) (cnt_keep hthreads hth rfl), ?_, ?_, ?_,
      frameExit Is (by rw [hs']) (cntc_keep hthreads hth rfl)
        (cntc_keep hthreads hth rfl),
      frameLogSorted Is (by rw [hs']), frameLogLe Is (by rw [hs']) (by rw [hs']),
      frameLogLt Is (by rw [hs']) (by rw [hs']) (cnt_keep hthreads hth rfl)⟩
  · intro c'
    by_cases hcc : c = c'
    · have hcount := cntc_succ_same hthreads hth hcc (p := lsCountedPC) rfl rfl
      subst hcc
      have ht := Is.ctr c
      rw [hvc, hcount, ht]
      push_cast
      ring
    · have hcount := cntc_ne hthreads hth hcc lsCountedPC
      have hv : s'.counter.get c' = s.counter.get c' := by
        rw [hs']
        exact Duo.get_set_ne _ _ (Ne.symm hcc)
      rw [hv, hcount]
      exact Is.ctr c'
  · have hA' : pendAcq s' c := cntc_pos_of_pc hth' rfl
    have hR' : ¬ pendRel s' c := fun hp => hnR
      ((pendRel_congr (cntc_keep hthreads hth
        (p := fun pc => pc == PC.lsRelBGM) rfl c)).mp hp)
    have h1 : ownsCount s c = 0 := by
      unfold ownsCount
      rw [if_neg]
      rintro (⟨hg, _⟩ | hr)
      · rw [hk] at hg
        exact absurd hg (by omega)
      · exact hnR hr
    have h2 : ownsCount s' c = 0 := by
      unfold ownsCount
      rw [if_neg]
      rintro (⟨_, hnp⟩ | hr)
      · exact hnp hA'
      · exact hR' hr
    exact bgm_update Is c (by rw [hs']) (by rw [h2, h1]) hothers
  · intro c' hp
    by_cases hcc : c = c'
    · subst hcc
      rw [hvc, hk]
      omega
    · have hv : s'.counter.get c' = s.counter.get c' := by
        rw [hs']
        exact Duo.get_set_ne _ _ (Ne.symm hcc)
      have hpe := pendAcq_congr
        (cntc_ne hthreads hth hcc (fun pc => pc == PC.lsAcqBGM))
      rw [hv]
      exact Is.pa c' (hpe.mp hp)
  · intro c' hp
    by_cases hcc : c = c'
    · subst hcc
      have hpe := pendRel_congr (cntc_keep hthreads hth
        (p := fun pc => pc == PC.lsRelBGM) rfl c)
      exact absurd (hpe.mp hp) hnR
    · have hv : s'.counter.get c' = s.counter.get c' := by
        rw [hs']
        exact Duo.get_set_ne _ _ (Ne.symm hcc)
      have hpe := pendRel_congr
        (cntc_ne hthreads hth hcc (fun pc => pc == PC.lsRelBGM))
      rw [hv]
      exact Is.pr c' (hpe.mp hp)

theorem invStep_lsInc2 {N : Nat} {s s' : Sys} {i : Nat} {c : Color}
    {tid : Option Nat} (Is : Inv N s)
    (hth : s.threads[i]? = some ⟨c, .lsInc, tid⟩)
    (hk : s.counter.get c + 1 ≠ 1)
    (hs' : s' = { s with counter := s.counter.set c (s.counter.get c + 1),
                         threads := s.threads.set i ⟨c, .lsRelMutex, tid⟩ }) :
    Inv N s' := by
  have hthreads : s'.threads = s.threads.set i ⟨c, .lsRelMutex, tid⟩ := by
    rw [hs']
  have hvc : s'.counter.get c = s.counter.get c + 1 := by
    rw [hs']
    exact Duo.get_set_same _ _ _
  have hctrO : s'.counter.get c.other = s.counter.get c.other := by
    rw [hs']
    exact Duo.get_set_ne _ _ (Ne.symm (Color.other_ne c))
  have hothers := ownsCount_ne_congr hthreads hth hctrO
  have hnA := not_pendAcq (A := .lsInc) Is hth rfl rfl
  have hnR := not_pendRel (A := .lsInc) Is hth rfl rfl
  have hpos0 : 0 < s.counter.get c := by
    have := Is.ctr c
    omega
  have hpeA : pendAcq s' c ↔ pendAcq s c :=
    pendAcq_congr (cntc_keep hthreads hth
      (p := fun pc => pc == PC.lsAcqBGM) rfl c)
  have hpeR : pendRel s' c ↔ pendRel s c :=
    pendRel_congr (cntc_keep hthreads hth
      (p := fun pc => pc == PC.lsRelBGM) rfl c)
  refine ⟨frameTurn Is (by rw [hs']) (cnt_keep hthreads hth rfl),
      frameLsm Is (by rw [hs']) (cntc_keep hthreads hth rfl),
      frameRoom Is (by rw [hs']) (cnt_keep hthreads hth rfl),
      frameSlot Is (by rw [hs']) (cntc_keep hthreads hth rfl), ?_,
      frameOcc Is (by rw [hs']) (cnt_keep hthreads hth rfl), ?_, ?_, ?_,
      frameExit Is (by rw [hs']) (cntc_keep hthreads hth rfl)
        (cntc_keep hthreads hth rfl),
      frameLogSorted Is (by rw [hs']), frameLogLe Is (by rw [hs']) (by rw [hs']),
      frameLogLt Is (by rw [hs']) (by rw [hs']) (cnt_keep hthreads hth rfl)⟩
  · intro c'
    by_cases hcc : c = c'
    · have hcount := cntc_succ_same hthreads hth hcc (p := lsCountedPC) rfl rfl
      subst hcc
      have ht := Is.ctr c
      rw [hvc, hcount, ht]
      push_cast
      ring
    · have hcount := cntc_ne hthreads hth hcc lsCountedPC
      have hv : s'.counter.get c' = s.counter.get c' := by
        rw [hs']
        exact Duo.get_set_ne _ _ (Ne.symm hcc)
      rw [hv, hcount]
      exact Is.ctr c'
  · have h1 : ownsCount s c = 1 := if_pos (Or.inl ⟨hpos0, hnA⟩)
    have h2 : ownsCount s' c = 1 := by
      refine if_pos (Or.inl ⟨?_, fun hp => hnA (hpeA.mp hp)⟩)
      rw [hvc]
      omega
    exact bgm_update Is c (by rw [hs']) (by rw [h2, h1]) hothers
  · intro c' hp
    by_cases hcc : c = c'
    · subst hcc
      exact absurd (hpeA.mp hp) hnA
    · have hv : s'.counter.get c' = s.counter.get c' := by
        rw [hs']
        exact Duo.get_set_ne _ _ (Ne.symm hcc)
      have hpe := pendAcq_congr
        (cntc_ne hthreads hth hcc (fun pc => pc == PC.lsAcqBGM))
      rw [hv]
      exact Is.pa c' (hpe.mp hp)
  · intro c' hp
    by_cases hcc : c = c'
    · subst hcc
      exact absurd (hpeR.mp hp) hnR
    · have hv : s'.counter.get c' = s.counter.get c' := by
        rw [hs']
        exact Duo.get_set_ne _ _ (Ne.symm hcc)
      have hpe := pendRel_congr
        (cntc_ne hthreads hth hcc (fun pc => pc == PC.lsRelBGM))
      rw [hv]
      exact Is.pr c' (hpe.mp hp)

theorem invStep_lsAcqBGM {N : Nat} {s s' : Sys} {i : Nat} {c : Color}
    {tid : Option Nat} (Is : Inv N s)
    (hth : s.threads[i]? = some ⟨c, .lsAcqBGM, tid⟩)
    (hcond : s.bgm ≠ 0)
    (hs' : s' = { s with bgm := s.bgm - 1,
                         threads := s.threads.set i ⟨c, .lsRelMutex, tid⟩ }) :
    Inv N s' := by
  have hthreads : s'.threads = s.threads.set i ⟨c, .lsRelMutex, tid⟩ := by
    rw [hs']
  have hctrAll : s'.counter = s.counter := by rw [hs']
  have hctrO : s'.counter.get c.other = s.counter.get c.other := by rw [hs']
  have hothers := ownsCount_ne_congr hthreads hth hctrO
  have hAcq : pendAcq s c := cntc_pos_of_pc hth rfl
  have hnR := not_pendRel (A := .lsAcqBGM) Is hth rfl rfl
  have hone : cntc s c (fun pc => pc == PC.lsAcqBGM) = 1 := by
    have hle2 : cntc s c (fun pc => pc == PC.lsAcqBGM)
        ≤ cntc s c lsMutexPC := cntc_mono_pc (by decide)
    have := lsm_le_one Is c
    have hpos : 0 < cntc s c (fun pc => pc == PC.lsAcqBGM) := hAcq
    omega
  have hA0 : cntc s' c (fun pc => pc == PC.lsAcqBGM) = 0 := by
    have := cntc_pred_same hthreads hth rfl
      (p := fun pc => pc == PC.lsAcqBGM) rfl rfl
    omega
  have hnA' : ¬ pendAcq s' c := by
    unfold pendAcq
    omega
  have hpR : ∀ c', pendRel s' c' ↔ pendRel s c' :=
    fun c' => pendRel_congr
      (cntc_keep hthreads hth (p := fun pc => pc == PC.lsRelBGM) rfl c')
  refine ⟨frameTurn Is (by rw [hs']) (cnt_keep hthreads hth rfl),
      frameLsm Is (by rw [hs']) (cntc_keep hthreads hth rfl),
      frameRoom Is (by rw [hs']) (cnt_keep hthreads hth rfl),
      frameSlot Is (by rw [hs']) (cntc_keep hthreads hth rfl),
      frameCtr Is hctrAll (cntc_keep hthreads hth rfl),
      frameOcc Is (by rw [hs']) (cnt_keep hthreads hth rfl), ?_, ?_,
      framePr Is hctrAll hpR,
      frameExit Is (by rw [hs']) (cntc_keep hthreads hth rfl)
        (cntc_keep hthreads hth rfl),
      frameLogSorted Is (by rw [hs']), frameLogLe Is (by rw [hs']) (by rw [hs']),
      frameLogLt Is (by rw [hs']) (by rw [hs']) (cnt_keep hthreads hth rfl)⟩
  · have h0 : ownsCount s c = 0 := by
      unfold ownsCount
      rw [if_neg]
      rintro (⟨_, hnp⟩ | hr)
      · exact hnp hAcq
      · exact hnR hr
    have h1 : ownsCount s' c = 1 := by
      refine if_pos (Or.inl ⟨?_, hnA'⟩)
      have hvone : s.counter.get c = 1 := Is.pa c hAcq
      rw [hctrAll, hvone]
      omega
    exact bgm_acquire Is c hcond (by rw [hs']) h0 h1 hothers
  · intro c' hp
    by_cases hcc : c = c'
    · subst hcc
      exact absurd hp hnA'
    · have hpe := pendAcq_congr
        (cntc_ne hthreads hth hcc (fun pc => pc == PC.lsAcqBGM))
      rw [hctrAll]
      exact Is.pa c' (hpe.mp hp)

theorem invStep_lsDec0 {N : Nat} {s s' : Sys} {i : Nat} {c : Color}
    {tid : Option Nat} (Is : Inv N s)
    (hth : s.threads[i]? = some ⟨c, .lsDec, tid⟩)
    (hk : s.counter.get c - 1 = 0)
    (hs' : s' = { s with counter := s.counter.set c (s.counter.get c - 1),
                         threads := s.threads.set i ⟨c, .lsRelBGM, tid⟩ }) :
    Inv N s' := by
  have hthreads : s'.threads = s.threads.set i ⟨c, .lsRelBGM, tid⟩ := by
    rw [hs']
  have hth' := threadAt_set (⟨c, .lsRelBGM, tid⟩ : Thread) hthreads hth
  have hvc : s'.counter.get c = s.counter.get c - 1 := by
    rw [hs']
    exact Duo.get_set_same _ _ _
  have hctrO : s'.counter.get c.other = s.counter.get c.other := by
    rw [hs']
    exact Duo.get_set_ne _ _ (Ne.symm (Color.other_ne c))
  have hothers := ownsCount_ne_congr hthreads hth hctrO
  have hnA := not_pendAcq (A := .lsDec) Is hth rfl rfl
  have hnR := not_pendRel (A := .lsDec) Is hth rfl rfl
  have hpeA : pendAcq s' c ↔ pendAcq s c :=
    pendAcq_congr (cntc_keep hthreads hth
      (p := fun pc => pc == PC.lsAcqBGM) rfl c)
  refine ⟨frameTurn Is (by rw [hs']) (cnt_keep hthreads hth rfl),
      frameLsm Is (by rw [hs']) (cntc_keep hthreads hth rfl),
      frameRoom Is (by rw [hs']) (cnt_keep hthreads hth rfl),
      frameSlot Is (by rw [hs']) (cntc_keep hthreads hth rfl), ?_,
      frameOcc Is (by rw [hs']) (cnt_keep hthreads hth rfl), ?_, ?_, ?_,
      frameExit Is (by rw [hs']) (cntc_keep hthreads hth rfl)
        (cntc_keep hthreads hth rfl),
      frameLogSorted Is (by rw [hs']), frameLogLe Is (by rw [hs']) (by rw [hs']),
      frameLogLt Is (by rw [hs']) (by rw [hs']) (cnt_keep hthreads hth rfl)⟩
  · intro c'
    by_cases hcc : c = c'
    · have hcount := cntc_pred_same hthreads hth hcc (p := lsCountedPC) rfl rfl
      subst hcc
      have ht := Is.ctr c
      rw [hvc, ht]
      omega
    · have hcount := cntc_ne hthreads hth hcc lsCountedPC
      have hv : s'.counter.get c' = s.counter.get c' := by
        rw [hs']
        exact Duo.get_set_ne _ _ (Ne.symm hcc)
      rw [hv, hcount]
      exact Is.ctr c'
  · have h1 : ownsCount s c = 1 := by
      refine if_pos (Or.inl ⟨?_, hnA⟩)
      omega
    have h2 : ownsCount s' c = 1 :=
      if_pos (Or.inr (cntc_pos_of_pc hth' rfl))
    exact bgm_update Is c (by rw [hs']) (by rw [h2, h1]) hothers
  · intro c' hp
    by_cases hcc : c = c'
    · subst hcc
      exact absurd (hpeA.mp hp) hnA
    · have hv : s'.counter.get c' = s.counter.get c' := by
        rw [hs']
        exact Duo.get_set_ne _ _ (Ne.symm hcc)
      have hpe := pendAcq_congr
        (cntc_ne hthreads hth hcc (fun pc => pc == PC.lsAcqBGM))
      rw [hv]
      exact Is.pa c' (hpe.mp hp)
  · intro c' hp
    by_cases hcc : c = c'
    · subst hcc
      rw [hvc, hk]
    · have hv : s'.counter.get c' = s.counter.get c' := by
        rw [hs']
        exact Duo.get_set_ne _ _ (Ne.symm hcc)
      have hpe := pendRel_congr
        (cntc_ne hthreads hth hcc (fun pc => pc == PC.lsRelBGM))
      rw [hv]
      exact Is.pr c' (hpe.mp hp)

theorem invStep_lsDecPos {N : Nat} {s s' : Sys} {i : Nat} {c : Color}
    {tid : Option Nat} (Is : Inv N s)
    (hth : s.threads[i]? = some ⟨c, .lsDec, tid⟩)
    (hk : s.counter.get c - 1 ≠ 0)
    (hs' : s' = { s with counter := s.counter.set c (s.counter.get c - 1),
                         threads := s.threads.set i ⟨c, .lsUnlRelMutex, tid⟩ }) :
    Inv N s' := by
  have hthreads : s'.threads = s.threads.set i ⟨c, .lsUnlRelMutex, tid⟩ := by
    rw [hs']
  have hvc : s'.counter.get c = s.counter.get c - 1 := by
    rw [hs']
    exact Duo.get_set_same _ _ _
  have hctrO : s'.counter.get c.other = s.counter.get c.other := by
    rw [hs']
    exact Duo.get_set_ne _ _ (Ne.symm (Color.other_ne c))
  have hothers := ownsCount_ne_congr hthreads hth hctrO
  have hnA := not_pendAcq (A := .lsDec) Is hth rfl rfl
  have hnR := not_pendRel (A := .lsDec) Is hth rfl rfl
  have hposc := cntc_pos_of_pc hth (p := lsCountedPC) rfl
  have hpos1 : 0 < s.counter.get c - 1 := by
    have := Is.ctr c
    omega
  have hpeA : pendAcq s' c ↔ pendAcq s c :=
    pendAcq_congr (cntc_keep hthreads hth
      (p := fun pc => pc == PC.lsAcqBGM) rfl c)
  have hpeR : pendRel s' c ↔ pendRel s c :=
    pendRel_congr (cntc_keep hthreads hth
      (p := fun pc => pc == PC.lsRelBGM) rfl c)
  refine ⟨frameTurn Is (by rw [hs']) (cnt_keep hthreads hth rfl),
      frameLsm Is (by rw [hs']) (cntc_keep hthreads hth rfl),
      frameRoom Is (by rw [hs']) (cnt_keep hthreads hth rfl),
      frameSlot Is (by rw [hs']) (cntc_keep hthreads hth rfl), ?_,
      frameOcc Is (by rw [hs']) (cnt_keep hthreads hth rfl), ?_, ?_, ?_,
      frameExit Is (by rw [hs']) (cntc_keep hthreads hth rfl)
        (cntc_keep hthreads hth rfl),
      frameLogSorted Is (by rw [hs']), frameLogLe Is (by rw [hs']) (by rw [hs']),
      frameLogLt Is (by rw [hs']) (by rw [hs']) (cnt_keep hthreads hth rfl)⟩
  · intro c'
    by_cases hcc : c = c'
    · have hcount := cntc_pred_same hthreads hth hcc (p := lsCountedPC) rfl rfl
      subst hcc
      have ht := Is.ctr c
      rw [hvc, ht]
      omega
    · have hcount := cntc_ne hthreads hth hcc lsCountedPC
      have hv : s'.counter.get c' = s.counter.get c' := by
        rw [hs']
        exact Duo.get_set_ne _ _ (Ne.symm hcc)
      rw [hv, hcount]
      exact Is.ctr c'
  · have h1 : ownsCount s c = 1 := by
      refine if_pos (Or.inl ⟨?_, hnA⟩)
      omega
    have h2 : ownsCount s' c = 1 := by
      refine if_pos (Or.inl ⟨?_, fun hp => hnA (hpeA.mp hp)⟩)
      rw [hvc]
      exact hpos1
    exact bgm_update Is c (by rw [hs']) (by rw [h2, h1]) hothers
  · intro c' hp
    by_cases hcc : c = c'
    · subst hcc
      exact absurd (hpeA.mp hp) hnA
    · have hv : s'.counter.get c' = s.counter.get c' := by
        rw [hs']
        exact Duo.get_set_ne _ _ (Ne.symm hcc)
      have hpe := pendAcq_congr
        (cntc_ne hthreads hth hcc (fun pc => pc == PC.lsAcqBGM))
      rw [hv]
      exact Is.pa c' (hpe.mp hp)
  · intro c' hp
    by_cases hcc : c = c'
    · subst hcc
      exact absurd (hpeR.mp hp) hnR
    · have hv : s'.counter.get c' = s.counter.get c' := by
        rw [hs']
        exact Duo.get_set_ne _ _ (Ne.symm hcc)
      have hpe := pendRel_congr
        (cntc_ne hthreads hth hcc (fun pc => pc == PC.lsRelBGM))
      rw [hv]
      exact Is.pr c' (hpe.mp hp)

theorem invStep_lsRelBGM {N : Nat} {s s' : Sys} {i : Nat} {c : Color}
    {tid : Option Nat} (Is : Inv N s)
    (hth : s.threads[i]? = some ⟨c, .lsRelBGM, tid⟩)
    (hs' : s' = { s with bgm := s.bgm + 1,
                         threads := s.threads.set i ⟨c, .lsUnlRelMutex, tid⟩ }) :
    Inv N s' := by
  have hthreads : s'.threads = s.threads.set i ⟨c, .lsUnlRelMutex, tid⟩ := by
    rw [hs']
  have hctrAll : s'.counter = s.counter := by rw [hs']
  have hRel : pendRel s c := cntc_pos_of_pc hth rfl
  have hctrO : s'.counter.get c.other = s.counter.get c.other := by rw [hs']
  have hothers := ownsCount_ne_congr hthreads hth hctrO
  have hone : cntc s c (fun pc => pc == PC.lsRelBGM) = 1 := by
    have hle2 : cntc s c (fun pc => pc == PC.lsRelBGM)
        ≤ cntc s c lsMutexPC := cntc_mono_pc (by decide)
    have := lsm_le_one Is c
    have hpos : 0 < cntc s c (fun pc => pc == PC.lsRelBGM) := hRel
    omega
  have hR0 : cntc s' c (fun pc => pc == PC.lsRelBGM) = 0 := by
    have := cntc_pred_same hthreads hth rfl
      (p := fun pc => pc == PC.lsRelBGM) rfl rfl
    omega
  have hnR' : ¬ pendRel s' c := by
    unfold pendRel
    omega
  have hpA : ∀ c', pendAcq s' c' ↔ pendAcq s c' :=
    fun c' => pendAcq_congr
      (cntc_keep hthreads hth (p := fun pc => pc == PC.lsAcqBGM) rfl c')
  refine ⟨frameTurn Is (by rw [hs']) (cnt_keep hthreads hth rfl),
      frameLsm Is (by rw [hs']) (cntc_keep hthreads hth rfl),
      frameRoom Is (by rw [hs']) (cnt_keep hthreads hth rfl),
      frameSlot Is (by rw [hs']) (cntc_keep hthreads hth rfl),
      frameCtr Is hctrAll (cntc_keep hthreads hth rfl),
      frameOcc Is (by rw [hs']) (cnt_keep hthreads hth rfl), ?_,
      framePa Is hctrAll hpA, ?_,
      frameExit Is (by rw [hs']) (cntc_keep hthreads hth rfl)
        (cntc_keep hthreads hth rfl),
      frameLogSorted Is (by rw [hs']), frameLogLe Is (by rw [hs']) (by rw [hs']),
      frameLogLt Is (by rw [hs']) (by rw [hs']) (cnt_keep hthreads hth rfl)⟩
  · have h1 : ownsCount s c = 1 := if_pos (Or.inr hRel)
    have h0 : ownsCount s' c = 0 := by
      unfold ownsCount
      rw [if_neg]
      rintro (⟨hg, _⟩ | hr)
      · have hz : s.counter.get c = 0 := Is.pr c hRel
        rw [hctrAll, hz] at hg
        exact absurd hg (by omega)
      · exact hnR' hr
    exact bgm_release Is c (by rw [hs']) h1 h0 hothers
  · intro c' hp
    by_cases hcc : c = c'
    · subst hcc
      exact absurd hp hnR'
    · have hpe := pendRel_congr
        (cntc_ne hthreads hth hcc (fun pc => pc == PC.lsRelBGM))
      rw [hctrAll]
      exact Is.pr c' (hpe.mp hp)

/-- The invariant is preserved by every step of every thread. -/
theorem inv_step {N : Nat} {s s' : Sys} (Is : Inv N s) (h : Step s s') :
    Inv N s' := by
  obtain ⟨i, hstep⟩ := h
  unfold threadNext at hstep
  cases hth : s.threads[i]? with
  | none =>
    rw [hth] at hstep
    exact absurd hstep (by simp)
  | some th =>
    rw [hth] at hstep
    obtain ⟨c, pc, tid⟩ := th
    cases pc <;> unfold stepOf at hstep <;> dsimp only at hstep
    case acqTurnstile =>
      split at hstep
      · exact absurd hstep (by simp)
      · next hcond =>
        rw [Option.some.injEq] at hstep
        exact invStep_acqTurnstile Is hth hcond hstep.symm
    case lsAcqMutex =>
      split at hstep
      · exact absurd hstep (by simp)
      · next hcond =>
        rw [Option.some.injEq] at hstep
        exact invStep_lsAcqMutex Is hth hcond hstep.symm
    case lsInc =>
      rw [Option.some.injEq] at hstep
      by_cases hk : s.counter.get c + 1 = 1
      · rw [if_pos hk] at hstep
        exact invStep_lsInc1 Is hth (by omega) hstep.symm
      · rw [if_neg hk] at hstep
        exact invStep_lsInc2 Is hth hk hstep.symm
    case lsAcqBGM =>
      split at hstep
      · exact absurd hstep (by simp)
      · next hcond =>
        rw [Option.some.injEq] at hstep
        exact invStep_lsAcqBGM Is hth hcond hstep.symm
    case lsRelMutex =>
      rw [Option.some.injEq] at hstep
      exact invStep_lsRelMutex Is hth hstep.symm
    case relTurnstile =>
      rw [Option.some.injEq] at hstep
      exact invStep_relTurnstile Is hth hstep.symm
    case acqSlots =>
      split at hstep
      · exact absurd hstep (by simp)
      · next hcond =>
        rw [Option.some.injEq] at hstep
        exact invStep_acqSlots Is hth hcond hstep.symm
    case acqRoomMutex1 =>
      split at hstep
      · exact absurd hstep (by simp)
      · next hcond =>
        rw [Option.some.injEq] at hstep
        exact invStep_acqRoomMutex1 Is hth (by simpa using hcond) hstep.symm
    case incThreadId =>
      rw [Option.some.injEq] at hstep
      exact invStep_incThreadId Is hth hstep.symm
    case incRoomCtr =>
      rw [Option.some.injEq] at hstep
      exact invStep_incRoomCtr Is hth hstep.symm
    case setTid =>
      rw [Option.some.injEq] at hstep
      exact invStep_setTid Is hth hstep.symm
    case relRoomMutex1 =>
      rw [Option.some.injEq] at hstep
      exact invStep_relRoomMutex1 Is hth hstep.symm
    case acqRoomMutex2 =>
      split at hstep
      · exact absurd hstep (by simp)
      · next hcond =>
        rw [Option.some.injEq] at hstep
        exact invStep_acqRoomMutex2 Is hth (by simpa using hcond) hstep.symm
    case relSlots =>
      rw [Option.some.injEq] at hstep
      exact invStep_relSlots Is hth hstep.symm
    case decRoomCtr =>
      rw [Option.some.injEq] at hstep
      exact invStep_decRoomCtr Is hth hstep.symm
    case relRoomMutex2 =>
      rw [Option.some.injEq] at hstep
      exact invStep_relRoomMutex2 Is hth hstep.symm
    case lsUnlAcqMutex =>
      split at hstep
      · exact absurd hstep (by simp)
      · next hcond =>
        rw [Option.some.injEq] at hstep
        exact invStep_lsUnlAcqMutex Is hth hcond hstep.symm
    case lsDec =>
      rw [Option.some.injEq] at hstep
      by_cases hk : s.counter.get c - 1 = 0
      · rw [if_pos hk] at hstep
        exact invStep_lsDec0 Is hth hk hstep.symm
      · rw [if_neg hk] at hstep
        exact invStep_lsDecPos Is hth hk hstep.symm
    case lsRelBGM =>
      rw [Option.some.injEq] at hstep
      exact invStep_lsRelBGM Is hth hstep.symm
    case lsUnlRelMutex =>
      rw [Option.some.injEq] at hstep
      exact invStep_lsUnlRelMutex Is hth hstep.symm
    case done =>
      exact absurd hstep (by simp)

/-- Every reachable state satisfies the invariant. -/
theorem inv_reach {N : Nat} {cols : List Color} {s : Sys}
    (h : Reach N cols s) : Inv N s := by
  induction h with
  | refl => exact inv_init N cols
  | tail _ hstep ih => exact inv_step ih hstep

/-! ## Derived safety facts: capacity bound and category exclusion -/

theorem cntc_pos_of_mem {s : Sys} {th : Thread} (hmem : th ∈ s.threads)
    {p : PC → Bool} (hp : p th.pc = true) : 0 < cntc s th.color p := by
  refine List.countP_pos_iff.mpr ⟨th, hmem, ?_⟩
  simp [hp]

theorem exists_of_cntc_pos {s : Sys} {c : Color} {p : PC → Bool}
    (h : 0 < cntc s c p) :
    ∃ th ∈ s.threads, th.color = c ∧ p th.pc = true := by
  obtain ⟨th, hmem, hp⟩ := List.countP_pos_iff.mp h
  exact ⟨th, hmem, beq_iff_eq.mp (Bool.and_eq_true _ _ |>.mp hp).1,
    (Bool.and_eq_true _ _ |>.mp hp).2⟩

theorem exists_of_cnt_pos {s : Sys} {p : PC → Bool} (h : 0 < cnt s p) :
    ∃ th ∈ s.threads, p th.pc = true :=
  List.countP_pos_iff.mp h

/-- Splitting a per-color count along a disjoint union of pc sets. -/
theorem cntc_split {s : Sys} {c : Color} {p q r : PC → Bool}
    (h : ∀ pc, r pc = (p pc || q pc))
    (hd : ∀ pc, ¬(p pc = true ∧ q pc = true)) :
    cntc s c r = cntc s c p + cntc s c q := by
  unfold cntc
  rw [← countP_disj s.threads (fun th => th.color == c && p th.pc)
      (fun th => th.color == c && q th.pc) ?_]
  · refine List.countP_congr ?_
    intro th _
    rw [h th.pc, Bool.and_or_distrib_left]
  · intro a ⟨h1, h2⟩
    exact hd a.pc ⟨(Bool.and_eq_true _ _ |>.mp h1).2,
      (Bool.and_eq_true _ _ |>.mp h2).2⟩

/-- Splitting a total count by color. -/
theorem cnt_color_split (s : Sys) (p : PC → Bool) :
    cnt s p = cntc s .blue p + cntc s .green p := by
  unfold cnt cntc
  rw [← countP_disj s.threads (fun th => th.color == Color.blue && p th.pc)
      (fun th => th.color == Color.green && p th.pc) ?_]
  · refine List.countP_congr ?_
    intro th _
    cases hcol : th.color <;> simp [hcol]
  · intro a ⟨h1, h2⟩
    have hb := beq_iff_eq.mp (Bool.and_eq_true _ _ |>.mp h1).1
    have hg := beq_iff_eq.mp (Bool.and_eq_true _ _ |>.mp h2).1
    rw [hb] at hg
    exact Color.noConfusion hg

/-- Two disjoint pc sets inside `r`, each inhabited by color `c`, put two
`c`-threads inside `r`. -/
theorem cntc_two_disjoint {s : Sys} {c : Color} {p q r : PC → Bool}
    (hd : ∀ pc, ¬(p pc = true ∧ q pc = true))
    (hpr : ∀ pc, p pc = true → r pc = true)
    (hqr : ∀ pc, q pc = true → r pc = true)
    (h1 : 0 < cntc s c p) (h2 : 0 < cntc s c q) : 2 ≤ cntc s c r := by
  have hdj := countP_disj s.threads (fun th => th.color == c && p th.pc)
      (fun th => th.color == c && q th.pc) ?_
  · have hmono : s.threads.countP
        (fun th => (th.color == c && p th.pc) || (th.color == c && q th.pc))
          ≤ cntc s c r := by
      refine List.countP_mono_left ?_
      intro th _ h
      rcases Bool.or_eq_true _ _ |>.mp h with h' | h'
      · exact Bool.and_eq_true _ _ |>.mpr
          ⟨(Bool.and_eq_true _ _ |>.mp h').1,
           hpr _ (Bool.and_eq_true _ _ |>.mp h').2⟩
      · exact Bool.and_eq_true _ _ |>.mpr
          ⟨(Bool.and_eq_true _ _ |>.mp h').1,
           hqr _ (Bool.and_eq_true _ _ |>.mp h').2⟩
    unfold cntc at h1 h2 hmono ⊢
    omega
  · intro a ⟨ha, hb⟩
    exact hd a.pc ⟨(Bool.and_eq_true _ _ |>.mp ha).2,
      (Bool.and_eq_true _ _ |>.mp hb).2⟩

/-- A color with a thread in the room owns the exclusion semaphore. -/
theorem owns_of_inRoom {N : Nat} {s : Sys} (Is : Inv N s) {c : Color}
    (h : 0 < cntc s c inRoomPC) : owns s c := by
  left
  constructor
  · have hcnt : 0 < cntc s c lsCountedPC :=
      lt_of_lt_of_le h (cntc_mono_pc (by decide))
    have := Is.ctr c
    omega
  · intro hp
    have h2 := cntc_two_disjoint
      (p := fun pc => pc == PC.lsAcqBGM) (q := inRoomPC) (r := lsCountedPC)
      (by decide) (by decide) (by decide) hp h
    have h1 := Is.pa c hp
    have hctr := Is.ctr c
    omega

/-- The two colors never occupy the room simultaneously. -/
theorem no_mixing {N : Nat} {s : Sys} (Is : Inv N s)
    (hb : 0 < cntc s .blue inRoomPC) (hg : 0 < cntc s .green inRoomPC) :
    False := by
  have h1 := owns_of_inRoom Is hb
  have h2 := owns_of_inRoom Is hg
  have hbg := Is.bgmInv
  unfold ownsCount at hbg
  rw [if_pos h1, if_pos h2] at hbg
  omega

/-- Per-color capacity bound for the room. -/
theorem cntc_inRoom_le {N : Nat} {s : Sys} (Is : Inv N s) (c : Color) :
    cntc s c inRoomPC ≤ N := by
  have e1 : cntc s c holdsSlotPC = cntc s c enteringPC + cntc s c midroomPC :=
    cntc_split (by decide) (by decide)
  have e2 : cntc s c inRoomPC
      = cntc s c midroomPC + cntc s c (fun pc => pc == PC.decRoomCtr) :=
    cntc_split (by decide) (by decide)
  have hslot := Is.slot c
  have hdle : cntc s c (fun pc => pc == PC.decRoomCtr) ≤ 1 :=
    le_trans (cntc_le_cnt _ _ _)
      (le_trans (cnt_mono_pc (by decide)) (room_le_one Is))
  rcases Nat.eq_zero_or_pos (cntc s c (fun pc => pc == PC.decRoomCtr)) with
    h0 | hpos
  · omega
  · have hexit := Is.exitSlot c hpos
    omega

/-- The occupancy counter never exceeds the capacity. -/
theorem roomCtr_le {N : Nat} {s : Sys} (Is : Inv N s) : s.roomCtr ≤ N := by
  have hocc := Is.occ
  have hsplit := cnt_color_split s inRoomPC
  have hble := cntc_inRoom_le Is .blue
  have hgle := cntc_inRoom_le Is .green
  rcases Nat.eq_zero_or_pos (cntc s .blue inRoomPC) with h0 | hpos
  · omega
  · have hg0 : cntc s .green inRoomPC = 0 := by
      by_contra h
      exact no_mixing Is hpos (Nat.pos_of_ne_zero h)
    omega

/-! ## Progress: a stuck state has every worker departed -/

/-- In a stuck state every live thread is either done or blocked on an
unavailable semaphore/lock. -/
theorem stuck_forms {s : Sys} (hstuck : ∀ i, threadNext s i = none)
    {j : Nat} {th : Thread} (hth : s.threads[j]? = some th) :
    th.pc = PC.done ∨
    (th.pc = PC.acqTurnstile ∧ s.turnstile = 0) ∨
    (th.pc = PC.lsAcqMutex ∧ s.lsMutex.get th.color = 0) ∨
    (th.pc = PC.lsAcqBGM ∧ s.bgm = 0) ∨
    (th.pc = PC.acqSlots ∧ s.slots.get th.color = 0) ∨
    (th.pc = PC.acqRoomMutex1 ∧ s.roomMutex = true) ∨
    (th.pc = PC.acqRoomMutex2 ∧ s.roomMutex = true) ∨
    (th.pc = PC.lsUnlAcqMutex ∧ s.lsMutex.get th.color = 0) := by
  have hj := hstuck j
  unfold threadNext at hj
  rw [hth] at hj
  obtain ⟨c, pc, tid⟩ := th
  cases pc <;> unfold stepOf at hj <;> dsimp only at hj
  case acqTurnstile =>
    split at hj
    · next hcond => exact Or.inr (Or.inl ⟨rfl, hcond⟩)
    · simp at hj
  case lsAcqMutex =>
    split at hj
    · next hcond => exact Or.inr (Or.inr (Or.inl ⟨rfl, hcond⟩))
    · simp at hj
  case lsInc => simp at hj
  case lsAcqBGM =>
    split at hj
    · next hcond => exact Or.inr (Or.inr (Or.inr (Or.inl ⟨rfl, hcond⟩)))
    · simp at hj
  case lsRelMutex => simp at hj
  case relTurnstile => simp at hj
  case acqSlots =>
    split at hj
    · next hcond =>
      exact Or.inr (Or.inr (Or.inr (Or.inr (Or.inl ⟨rfl, hcond⟩))))
    · simp at hj
  case acqRoomMutex1 =>
    split at hj
    · next hcond =>
      exact Or.inr (Or.inr (Or.inr (Or.inr (Or.inr (Or.inl ⟨rfl, hcond⟩)))))
    · simp at hj
  case incThreadId => simp at hj
  case incRoomCtr => simp at hj
  case setTid => simp at hj
  case relRoomMutex1 => simp at hj
  case acqRoomMutex2 =>
    split at hj
    · next hcond =>
      exact Or.inr (Or.inr (Or.inr (Or.inr (Or.inr (Or.inr
        (Or.inl ⟨rfl, hcond⟩))))))
    · simp at hj
  case relSlots => simp at hj
  case decRoomCtr => simp at hj
  case relRoomMutex2 => simp at hj
  case lsUnlAcqMutex =>
    split at hj
    · next hcond =>
      exact Or.inr (Or.inr (Or.inr (Or.inr (Or.inr (Or.inr (Or.inr
        ⟨rfl, hcond⟩))))))
    · simp at hj
  case lsDec => simp at hj
  case lsRelBGM => simp at hj
  case lsUnlRelMutex => simp at hj
  case done => exact Or.inl rfl

/-- Deadlock freedom: if the capacity is at least one and no thread can
step, every thread has finished its protocol. -/
theorem stuck_all_done {N : Nat} {cols : List Color} {s : Sys} (hN : 1 ≤ N)
    (hr : Reach N cols s) (hstuck : ∀ i, threadNext s i = none) :
    ∀ th ∈ s.threads, th.pc = PC.done := by
  have Is := inv_reach hr
  have hforms : ∀ th ∈ s.threads, th.pc = PC.done ∨
      (th.pc = PC.acqTurnstile ∧ s.turnstile = 0) ∨
      (th.pc = PC.lsAcqMutex ∧ s.lsMutex.get th.color = 0) ∨
      (th.pc = PC.lsAcqBGM ∧ s.bgm = 0) ∨
      (th.pc = PC.acqSlots ∧ s.slots.get th.color = 0) ∨
      (th.pc = PC.acqRoomMutex1 ∧ s.roomMutex = true) ∨
      (th.pc = PC.acqRoomMutex2 ∧ s.roomMutex = true) ∨
      (th.pc = PC.lsUnlAcqMutex ∧ s.lsMutex.get th.color = 0) := by
    intro th hmem
    obtain ⟨j, hj⟩ := List.mem_iff_getElem?.mp hmem
    exact stuck_forms hstuck hj
  have hnoRM : cnt s roomMutexPC = 0 := by
    unfold cnt
    rw [List.countP_eq_zero]
    intro th hmem
    rcases hforms th hmem with h | ⟨h,_⟩ | ⟨h,_⟩ | ⟨h,_⟩ | ⟨h,_⟩ | ⟨h,_⟩
        | ⟨h,_⟩ | ⟨h,_⟩ <;> rw [h] <;> decide
  have hRM : s.roomMutex = false := by
    have h := Is.room
    rw [hnoRM] at h
    cases hb : s.roomMutex
    · rfl
    · rw [hb] at h
      simp at h
  have hforms2 : ∀ th ∈ s.threads, th.pc = PC.done ∨
      (th.pc = PC.acqTurnstile ∧ s.turnstile = 0) ∨
      (th.pc = PC.lsAcqMutex ∧ s.lsMutex.get th.color = 0) ∨
      (th.pc = PC.lsAcqBGM ∧ s.bgm = 0) ∨
      (th.pc = PC.acqSlots ∧ s.slots.get th.color = 0) ∨
      (th.pc = PC.lsUnlAcqMutex ∧ s.lsMutex.get th.color = 0) := by
    intro th hmem
    rcases hforms th hmem with hf | hf | hf | hf | hf | ⟨_, hf⟩ | ⟨_, hf⟩ | hf
    · exact Or.inl hf
    · exact Or.inr (Or.inl hf)
    · exact Or.inr (Or.inr (Or.inl hf))
    · exact Or.inr (Or.inr (Or.inr (Or.inl hf)))
    · exact Or.inr (Or.inr (Or.inr (Or.inr (Or.inl hf))))
    · rw [hRM] at hf
      exact Bool.noConfusion hf
    · rw [hRM] at hf
      exact Bool.noConfusion hf
    · exact Or.inr (Or.inr (Or.inr (Or.inr (Or.inr hf))))
  have hnoPR : ∀ c', ¬ pendRel s c' := by
    intro c' hp
    obtain ⟨th, hmem, _, hpc⟩ := exists_of_cntc_pos hp
    have hpc' : th.pc = PC.lsRelBGM := beq_iff_eq.mp hpc
    rcases hforms2 th hmem with h | ⟨h,_⟩ | ⟨h,_⟩ | ⟨h,_⟩ | ⟨h,_⟩ | ⟨h,_⟩ <;>
      rw [hpc'] at h <;> exact PC.noConfusion h
  have hnoSlotHold : ∀ c', cntc s c' holdsSlotPC = 0 := by
    intro c'
    unfold cntc
    rw [List.countP_eq_zero]
    intro th hmem hth
    have hhs := (Bool.and_eq_true _ _ |>.mp hth).2
    rcases hforms2 th hmem with h | ⟨h,_⟩ | ⟨h,_⟩ | ⟨h,_⟩ | ⟨h,_⟩ | ⟨h,_⟩ <;>
      rw [h] at hhs <;> exact Bool.noConfusion hhs
  have hnoAS : ∀ th ∈ s.threads, th.pc ≠ PC.acqSlots := by
    intro th hmem hpc
    rcases hforms2 th hmem with h | ⟨h,_⟩ | ⟨h,_⟩ | ⟨h,_⟩ | ⟨_, hs0⟩ | ⟨h,_⟩
    · rw [hpc] at h; exact PC.noConfusion h
    · rw [hpc] at h; exact PC.noConfusion h
    · rw [hpc] at h; exact PC.noConfusion h
    · rw [hpc] at h; exact PC.noConfusion h
    · have hslot := Is.slot th.color
      rw [hnoSlotHold th.color] at hslot
      omega
    · rw [hpc] at h; exact PC.noConfusion h
  have hnoBGM : ∀ th ∈ s.threads, th.pc ≠ PC.lsAcqBGM := by
    intro th hmem hpc
    have hbgm0 : s.bgm = 0 := by
      rcases hforms2 th hmem with h | ⟨h,_⟩ | ⟨h,_⟩ | ⟨_, h⟩ | ⟨h,_⟩ | ⟨h,_⟩
      · rw [hpc] at h; exact PC.noConfusion h
      · rw [hpc] at h; exact PC.noConfusion h
      · rw [hpc] at h; exact PC.noConfusion h
      · exact h
      · rw [hpc] at h; exact PC.noConfusion h
      · rw [hpc] at h; exact PC.noConfusion h
    have hpend : pendAcq s th.color := cntc_pos_of_mem hmem (by rw [hpc]; rfl)
    have hownsC : ¬ owns s th.color := by
      rintro (⟨_, hnp⟩ | hr)
      · exact hnp hpend
      · exact hnoPR _ hr
    have howns : owns s th.color.other := by
      have hb := Is.bgmInv
      rw [hbgm0] at hb
      by_contra hno
      unfold ownsCount at hb
      cases hcol : th.color <;> rw [hcol] at hownsC hno <;>
        simp only [Color.other] at hno <;>
        rw [if_neg hownsC, if_neg hno] at hb <;> omega
    rcases howns with ⟨hgpos, hnpo⟩ | hro
    · have hcpos : 0 < cntc s th.color.other lsCountedPC := by
        have := Is.ctr th.color.other
        omega
      obtain ⟨th2, hmem2, hcol2, hcnt2⟩ := exists_of_cntc_pos hcpos
      rcases hforms2 th2 hmem2 with h | ⟨h,_⟩ | ⟨h,_⟩ | ⟨h,_⟩ | ⟨h,_⟩ | ⟨h, hm0⟩
      · rw [h] at hcnt2; exact Bool.noConfusion hcnt2
      · rw [h] at hcnt2; exact Bool.noConfusion hcnt2
      · rw [h] at hcnt2; exact Bool.noConfusion hcnt2
      · refine hnpo ?_
        rw [← hcol2]
        exact cntc_pos_of_mem hmem2 (by rw [h]; rfl)
      · exact hnoAS th2 hmem2 h
      · rw [hcol2] at hm0
        have hlsm := Is.lsm th.color.other
        rw [hm0] at hlsm
        have hpos3 : 0 < cntc s th.color.other lsMutexPC := by omega
        obtain ⟨th3, hmem3, hcol3, h3⟩ := exists_of_cntc_pos hpos3
        rcases hforms2 th3 hmem3 with h' | ⟨h',_⟩ | ⟨h',_⟩ | ⟨h',_⟩ | ⟨h',_⟩
            | ⟨h',_⟩
        · rw [h'] at h3; exact Bool.noConfusion h3
        · rw [h'] at h3; exact Bool.noConfusion h3
        · rw [h'] at h3; exact Bool.noConfusion h3
        · refine hnpo ?_
          rw [← hcol3]
          exact cntc_pos_of_mem hmem3 (by rw [h']; rfl)
        · rw [h'] at h3; exact Bool.noConfusion h3
        · rw [h'] at h3; exact Bool.noConfusion h3
    · exact hnoPR _ hro
  have hnoLsWait : ∀ th ∈ s.threads,
      th.pc = PC.lsAcqMutex ∨ th.pc = PC.lsUnlAcqMutex →
      s.lsMutex.get th.color = 0 → False := by
    intro th hmem _ hm0
    have hlsm := Is.lsm th.color
    rw [hm0] at hlsm
    have hpos3 : 0 < cntc s th.color lsMutexPC := by omega
    obtain ⟨th3, hmem3, hcol3, h3⟩ := exists_of_cntc_pos hpos3
    rcases hforms2 th3 hmem3 with h' | ⟨h',_⟩ | ⟨h',_⟩ | ⟨h',_⟩ | ⟨h',_⟩ | ⟨h',_⟩
    · rw [h'] at h3; exact Bool.noConfusion h3
    · rw [h'] at h3; exact Bool.noConfusion h3
    · rw [h'] at h3; exact Bool.noConfusion h3
    · exact hnoBGM th3 hmem3 h'
    · rw [h'] at h3; exact Bool.noConfusion h3
    · rw [h'] at h3; exact Bool.noConfusion h3
  have hnoAT : ∀ th ∈ s.threads, th.pc ≠ PC.acqTurnstile := by
    intro th hmem hpc
    have hts0 : s.turnstile = 0 := by
      rcases hforms2 th hmem with h | ⟨_, h⟩ | ⟨h,_⟩ | ⟨h,_⟩ | ⟨h,_⟩ | ⟨h,_⟩
      · rw [hpc] at h; exact PC.noConfusion h
      · exact h
      · rw [hpc] at h; exact PC.noConfusion h
      · rw [hpc] at h; exact PC.noConfusion h
      · rw [hpc] at h; exact PC.noConfusion h
      · rw [hpc] at h; exact PC.noConfusion h
    have hturn := Is.turn
    rw [hts0] at hturn
    have hpos : 0 < cnt s turnstilePC := by omega
    obtain ⟨th2, hmem2, h2⟩ := exists_of_cnt_pos hpos
    rcases hforms2 th2 hmem2 with h' | ⟨h',_⟩ | ⟨h', hm⟩ | ⟨h',_⟩ | ⟨h',_⟩
        | ⟨h',_⟩
    · rw [h'] at h2; exact Bool.noConfusion h2
    · rw [h'] at h2; exact Bool.noConfusion h2
    · exact hnoLsWait th2 hmem2 (Or.inl h') hm
    · exact hnoBGM th2 hmem2 h'
    · rw [h'] at h2; exact Bool.noConfusion h2
    · rw [h'] at h2; exact Bool.noConfusion h2
  intro th hmem
  rcases hforms2 th hmem with h | ⟨h,_⟩ | ⟨h, hm⟩ | ⟨h,_⟩ | ⟨h,_⟩ | ⟨h, hm⟩
  · exact h
  · exact absurd h (hnoAT th hmem)
  · exact (hnoLsWait th hmem (Or.inl h) hm).elim
  · exact absurd h (hnoBGM th hmem)
  · exact absurd h (hnoAS th hmem)
  · exact (hnoLsWait th hmem (Or.inr h) hm).elim

/-! ## Termination measure: every run is finite -/

theorem sum_map_set {α : Type} (l : List α) (i : Nat) (a b : α)
    (f : α → Nat) (hl : l[i]? = some a) :
    ((l.set i b).map f).sum + f a = (l.map f).sum + f b := by
  induction l generalizing i with
  | nil => simp at hl
  | cons x xs ih =>
    cases i with
    | zero =>
      rw [List.getElem?_cons_zero, Option.some.injEq] at hl
      subst hl
      simp only [List.set_cons_zero, List.map_cons, List.sum_cons]
      omega
    | succ n =>
      rw [List.getElem?_cons_succ] at hl
      simp only [List.set_cons_succ, List.map_cons, List.sum_cons]
      have := ih n hl
      omega

theorem stepsLeft_lt_of {s s' : Sys} {i : Nat} {thA thB : Thread}
    (hth : s.threads[i]? = some thA)
    (hthreads : s'.threads = s.threads.set i thB)
    (hrank : pcRank thB.pc < pcRank thA.pc) :
    stepsLeft s' < stepsLeft s := by
  have hsum := sum_map_set s.threads i thA thB (fun th => pcRank th.pc) hth
  dsimp only at hsum
  unfold stepsLeft
  rw [hthreads]
  omega

/-- Every step strictly decreases the number of remaining statements, so no
run exceeds `stepsLeft` of its starting state. -/
theorem stepsLeft_decreases {s s' : Sys} (h : Step s s') :
    stepsLeft s' < stepsLeft s := by
  obtain ⟨i, hstep⟩ := h
  unfold threadNext at hstep
  cases hth : s.threads[i]? with
  | none =>
    rw [hth] at hstep
    exact absurd hstep (by simp)
  | some th =>
    rw [hth] at hstep
    obtain ⟨c, pc, tid⟩ := th
    cases pc <;> unfold stepOf at hstep <;> dsimp only at hstep
    case acqTurnstile =>
      split at hstep
      · simp at hstep
      · rw [Option.some.injEq] at hstep
        subst hstep
        exact stepsLeft_lt_of hth rfl (by simp [pcRank])
    case lsAcqMutex =>
      split at hstep
      · simp at hstep
      · rw [Option.some.injEq] at hstep
        subst hstep
        exact stepsLeft_lt_of hth rfl (by simp [pcRank])
    case lsInc =>
      rw [Option.some.injEq] at hstep
      subst hstep
      refine stepsLeft_lt_of hth rfl ?_
      split <;> simp [pcRank]
    case lsAcqBGM =>
      split at hstep
      · simp at hstep
      · rw [Option.some.injEq] at hstep
        subst hstep
        exact stepsLeft_lt_of hth rfl (by simp [pcRank])
    case lsRelMutex =>
      rw [Option.some.injEq] at hstep
      subst hstep
      exact stepsLeft_lt_of hth rfl (by simp [pcRank])
    case relTurnstile =>
      rw [Option.some.injEq] at hstep
      subst hstep
      exact stepsLeft_lt_of hth rfl (by simp [pcRank])
    case acqSlots =>
      split at hstep
      · simp at hstep
      · rw [Option.some.injEq] at hstep
        subst hstep
        exact stepsLeft_lt_of hth rfl (by simp [pcRank])
    case acqRoomMutex1 =>
      split at hstep
      · simp at hstep
      · rw [Option.some.injEq] at hstep
        subst hstep
        exact stepsLeft_lt_of hth rfl (by simp [pcRank])
    case incThreadId =>
      rw [Option.some.injEq] at hstep
      subst hstep
      exact stepsLeft_lt_of hth rfl (by simp [pcRank])
    case incRoomCtr =>
      rw [Option.some.injEq] at hstep
      subst hstep
      exact stepsLeft_lt_of hth rfl (by simp [pcRank])
    case setTid =>
      rw [Option.some.injEq] at hstep
      subst hstep
      exact stepsLeft_lt_of hth rfl (by simp [pcRank])
    case relRoomMutex1 =>
      rw [Option.some.injEq] at hstep
      subst hstep
      exact stepsLeft_lt_of hth rfl (by simp [pcRank])
    case acqRoomMutex2 =>
      split at hstep
      · simp at hstep
      · rw [Option.some.injEq] at hstep
        subst hstep
        exact stepsLeft_lt_of hth rfl (by simp [pcRank])
    case relSlots =>
      rw [Option.some.injEq] at hstep
      subst hstep
      exact stepsLeft_lt_of hth rfl (by simp [pcRank])
    case decRoomCtr =>
      rw [Option.some.injEq] at hstep
      subst hstep
      exact stepsLeft_lt_of hth rfl (by simp [pcRank])
    case relRoomMutex2 =>
      rw [Option.some.injEq] at hstep
      subst hstep
      exact stepsLeft_lt_of hth rfl (by simp [pcRank])
    case lsUnlAcqMutex =>
      split at hstep
      · simp at hstep
      · rw [Option.some.injEq] at hstep
        subst hstep
        exact stepsLeft_lt_of hth rfl (by simp [pcRank])
    case lsDec =>
      rw [Option.some.injEq] at hstep
      subst hstep
      refine stepsLeft_lt_of hth rfl ?_
      split <;> simp [pcRank]
    case lsRelBGM =>
      rw [Option.some.injEq] at hstep
      subst hstep
      exact stepsLeft_lt_of hth rfl (by simp [pcRank])
    case lsUnlRelMutex =>
      rw [Option.some.injEq] at hstep
      subst hstep
      exact stepsLeft_lt_of hth rfl (by simp [pcRank])
    case done => simp at hstep

/-! ## Concrete reachable states -/

theorem reach_runSched {N : Nat} {cols : List Color} :
    ∀ (l : List Nat) (s s' : Sys), Reach N cols s →
      runSched s l = some s' → Reach N cols s' := by
  intro l
  induction l with
  | nil =>
    intro s s' hr h
    unfold runSched at h
    rw [Option.some.injEq] at h
    exact h ▸ hr
  | cons i is ih =>
    intro s s' hr h
    unfold runSched at h
    cases hn : threadNext s i with
    | none =>
      rw [hn] at h
      exact absurd h (by simp)
    | some s1 =>
      rw [hn] at h
      exact ih s1 s' (Relation.ReflTransGen.tail hr ⟨i, hn⟩) h

theorem reach_sOne : Reach 1 colsOne sOne :=
  reach_runSched (List.replicate 12 0) _ _ Relation.ReflTransGen.refl rfl

theorem reach_sAtInc : Reach 1 colsOne sAtInc :=
  reach_runSched [0, 0] _ _ Relation.ReflTransGen.refl rfl

theorem reach_sAtDec : Reach 1 colsOne sAtDec :=
  reach_runSched (List.replicate 17 0) _ _ Relation.ReflTransGen.refl rfl

theorem reach_sDone : Reach 1 colsOne sDone :=
  reach_runSched (List.replicate 20 0) _ _ Relation.ReflTransGen.refl (by decide)

theorem reach_sTwo : Reach 2 [Color.blue, Color.blue] sTwo :=
  reach_runSched (List.replicate 12 0 ++ List.replicate 11 1) _ _
    Relation.ReflTransGen.refl (by decide)

theorem reach_sPermit : Reach 1 [Color.blue, Color.blue] sPermit :=
  reach_runSched (List.replicate 14 0 ++ List.replicate 6 1) _ _
    Relation.ReflTransGen.refl (by decide)

theorem reach_sBlocked : Reach 1 [Color.green, Color.blue] sBlocked :=
  reach_runSched (List.replicate 6 0 ++ List.replicate 3 1) _ _
    Relation.ReflTransGen.refl (by decide)

/-! ## The claims -/

/-- C1: for every run and at every instant, the number of workers in the room
(`room_ctr`) is at most the configured capacity `N` (`num_slots`), for any
interleaving of worker threads. -/
theorem C1_capacity_invariant :
    ∀ (N : Nat) (cols : List Color) (s : Sys), Reach N cols s →
      s.roomCtr ≤ N :=
  fun _ _ _ hr => roomCtr_le (inv_reach hr)

/-- C1 witness: a reachable state of a capacity-1 run with the room actually
occupied satisfies the bound. -/
theorem C1_capacity_invariant_witness : sOne.roomCtr ≤ 1 ∧ sOne.roomCtr = 1 :=
  ⟨C1_capacity_invariant 1 colsOne sOne reach_sOne, by decide⟩

/-- C2: at every instant all workers in the room (between their `room_ctr`
increment and decrement) have the same color: no reachable state mixes blue
and green occupants. -/
theorem C2_no_mixing :
    ∀ (N : Nat) (cols : List Color) (s : Sys), Reach N cols s →
      ∀ (i j : Nat) (thi thj : Thread),
        s.threads[i]? = some thi → s.threads[j]? = some thj →
        inRoomPC thi.pc = true → inRoomPC thj.pc = true →
        thi.color = thj.color := by
  intro N cols s hr i j thi thj hi hj hini hinj
  have Is := inv_reach hr
  have hpi := cntc_pos_of_mem (List.getElem?_mem hi) hini
  have hpj := cntc_pos_of_mem (List.getElem?_mem hj) hinj
  cases hci : thi.color <;> cases hcj : thj.color
  · rfl
  · rw [hci] at hpi
    rw [hcj] at hpj
    exact (no_mixing Is hpi hpj).elim
  · rw [hci] at hpi
    rw [hcj] at hpj
    exact (no_mixing Is hpj hpi).elim
  · rfl

/-- C2 witness: a reachable state with two workers in the room
simultaneously; the theorem forces their colors to agree. -/
theorem C2_no_mixing_witness :
    (Thread.mk Color.blue PC.acqRoomMutex2 (some 1)).color
      = (Thread.mk Color.blue PC.acqRoomMutex2 (some 2)).color :=
  C2_no_mixing 2 [Color.blue, Color.blue] sTwo reach_sTwo 0 1
    (Thread.mk Color.blue PC.acqRoomMutex2 (some 1))
    (Thread.mk Color.blue PC.acqRoomMutex2 (some 2))
    (by decide) (by decide) rfl rfl

/-- C3: with capacity at least 1, the system never deadlocks: in any
reachable state in which no live thread can execute its next statement every
worker has completed its exit sequence; moreover every statement execution
strictly decreases the total remaining-statement count, so every run is
finite and, under any (hence any fair) scheduler, every worker eventually
completes — no deadlock and no indefinite starvation of either color. -/
theorem C3_no_deadlock_termination :
    ∀ (N : Nat) (cols : List Color) (s : Sys), 1 ≤ N → Reach N cols s →
      ((∀ i, i < s.threads.length → threadNext s i = none) →
          ∀ th ∈ s.threads, th.pc = PC.done) ∧
      (∀ s', Step s s' → stepsLeft s' < stepsLeft s) := by
  intro N cols s hN hr
  constructor
  · intro hstuck
    refine stuck_all_done hN hr ?_
    intro i
    by_cases h : i < s.threads.length
    · exact hstuck i h
    · unfold threadNext
      rw [List.getElem?_len_le (le_of_not_lt h)]
  · intro s' hst
    exact stepsLeft_decreases hst

/-- C3 witness: the completed one-worker run is stuck, and the theorem
concludes its worker has departed. -/
theorem C3_no_deadlock_termination_witness :
    (∀ th ∈ sDone.threads, th.pc = PC.done) ∧ stepsLeft sDone = 0 :=
  ⟨(C3_no_deadlock_termination 1 colsOne sDone (by decide) reach_sDone).1
    (by decide), by decide⟩

/-- C4: `Lightswitch.lock` increments the counter, and it acquires the
exclusion semaphore exactly when the pre-increment counter was 0
(post-increment 1); when the counter was already positive it returns without
touching or blocking on the exclusion semaphore.  In the thread model, a
thread executing the increment holds the lightswitch's internal mutex. -/
theorem C4_register_entry :
    (∀ (counter : Int) (bgm : Nat), counter ≠ 0 →
        lightswitchLock counter bgm = some (counter + 1, bgm)) ∧
    (∀ (counter : Int) (bgm : Nat) (r : Int × Nat),
        lightswitchLock counter bgm = some r →
        r.1 = counter + 1 ∧ (r.2 < bgm ↔ counter = 0)) ∧
    (∀ bgm : Nat, 0 < bgm → lightswitchLock 0 bgm = some (1, bgm - 1)) ∧
    lightswitchLock 0 0 = none ∧
    (∀ (N : Nat) (cols : List Color) (s : Sys) (i : Nat) (th : Thread),
        Reach N cols s → s.threads[i]? = some th → th.pc = PC.lsInc →
        s.lsMutex.get th.color = 0) := by
  refine ⟨?_, ?_, ?_, rfl, ?_⟩
  · intro counter bgm h
    unfold lightswitchLock
    dsimp only
    rw [if_neg (by omega)]
  · intro counter bgm r h
    unfold lightswitchLock at h
    dsimp only at h
    by_cases hc : counter + 1 = 1
    · rw [if_pos hc] at h
      by_cases hb : bgm = 0
      · rw [if_pos hb] at h
        exact absurd h (by simp)
      · rw [if_neg hb] at h
        rw [Option.some.injEq] at h
        subst h
        exact ⟨rfl, by constructor <;> intro h' <;> omega⟩
    · rw [if_neg hc] at h
      rw [Option.some.injEq] at h
      subst h
      exact ⟨rfl, by constructor <;> intro h' <;> omega⟩
  · intro bgm hb
    unfold lightswitchLock
    dsimp only
    rw [if_pos (by norm_num), if_neg (by omega)]
    norm_num
  · intro N cols s i th hr hth hpc
    have Is := inv_reach hr
    have hpos := cntc_pos_of_mem (List.getElem?_mem hth)
      (p := lsMutexPC) (by rw [hpc]; rfl)
    have := Is.lsm th.color
    omega

/-- C4 witness: concrete calls on both paths, plus a reachable state with a
thread at the increment holding its lightswitch mutex. -/
theorem C4_register_entry_witness :
    lightswitchLock 5 1 = some (6, 1) ∧ lightswitchLock 0 2 = some (1, 1) ∧
    sAtInc.lsMutex.get Color.blue = 0 :=
  ⟨C4_register_entry.1 5 1 (by decide), C4_register_entry.2.2.1 2 (by decide),
   C4_register_entry.2.2.2.2 1 colsOne sAtInc 0
     (Thread.mk Color.blue PC.lsInc none) reach_sAtInc (by decide) rfl⟩

/-- C5: `Lightswitch.unlock` decrements the counter, and it releases the
exclusion semaphore exactly when the post-decrement counter is 0; otherwise
the exclusion semaphore is untouched.  In the thread model, a thread
executing the decrement holds the lightswitch's internal mutex. -/
theorem C5_register_exit :
    (∀ (counter : Int) (bgm : Nat),
        lightswitchUnlock counter bgm
          = (counter - 1, if counter - 1 = 0 then bgm + 1 else bgm)) ∧
    (∀ (counter : Int) (bgm : Nat),
        ((lightswitchUnlock counter bgm).2 = bgm + 1 ↔ counter - 1 = 0) ∧
        (counter - 1 ≠ 0 → (lightswitchUnlock counter bgm).2 = bgm)) ∧
    (∀ (N : Nat) (cols : List Color) (s : Sys) (i : Nat) (th : Thread),
        Reach N cols s → s.threads[i]? = some th → th.pc = PC.lsDec →
        s.lsMutex.get th.color = 0) := by
  refine ⟨?_, ?_, ?_⟩
  · intro counter bgm
    unfold lightswitchUnlock
    dsimp only
    by_cases h : counter - 1 = 0
    · rw [if_pos h, if_pos h]
    · rw [if_neg h, if_neg h]
  · intro counter bgm
    unfold lightswitchUnlock
    dsimp only
    by_cases h : counter - 1 = 0
    · rw [if_pos h]
      exact ⟨⟨fun _ => h, fun _ => rfl⟩, fun hn => absurd h hn⟩
    · rw [if_neg h]
      refine ⟨⟨fun hb => ?_, fun hcz => absurd hcz h⟩, fun _ => rfl⟩
      omega
  · intro N cols s i th hr hth hpc
    have Is := inv_reach hr
    have hpos := cntc_pos_of_mem (List.getElem?_mem hth)
      (p := lsMutexPC) (by rw [hpc]; rfl)
    have := Is.lsm th.color
    omega

/-- C5 witness: concrete calls on both paths, plus a reachable state with a
thread at the decrement holding its lightswitch mutex. -/
theorem C5_register_exit_witness :
    lightswitchUnlock 1 0 = (0, 1) ∧ (lightswitchUnlock 3 7).2 = 7 ∧
    sAtDec.lsMutex.get Color.blue = 0 :=
  ⟨by rw [C5_register_exit.1 1 0]; norm_num,
   (C5_register_exit.2.1 3 7).2 (by decide),
   C5_register_exit.2.2 1 colsOne sAtDec 0
     (Thread.mk Color.blue PC.lsDec (some 1)) reach_sAtDec (by decide) rfl⟩

/-- C6: the configuration fails (raising one of the module's exceptions
before any thread object is created) exactly when the capacity is
nonpositive, a thread count is negative, or both thread counts are zero; a
valid configuration produces the initial state holding all created threads,
none of which has run. -/
theorem C6_configuration_validation :
    ∀ ns nb ng : Int,
      ((∃ e, setup ns nb ng = Except.error e) ↔
        (ns ≤ 0 ∨ nb < 0 ∨ ng < 0 ∨ (nb = 0 ∧ ng = 0))) ∧
      ((∃ sys, setup ns nb ng = Except.ok sys) ↔
        (0 < ns ∧ 0 ≤ nb ∧ 0 ≤ ng ∧ ¬(nb = 0 ∧ ng = 0))) ∧
      (∀ sys, setup ns nb ng = Except.ok sys →
        sys = initSys ns.toNat (mkColors nb.toNat ng.toNat) ∧
        sys.threads.length = nb.toNat + ng.toNat ∧
        ∀ th ∈ sys.threads, th.pc = PC.acqTurnstile) := by
  intro ns nb ng
  refine ⟨?_, ?_, ?_⟩
  · unfold setup configure
    split_ifs with h1 h2 h3 h4 <;> simp <;> omega
  · unfold setup configure
    split_ifs with h1 h2 h3 h4 <;> simp <;> omega
  · unfold setup configure
    split_ifs with h1 h2 h3 h4
    · intro sys hs
      simp at hs
    · intro sys hs
      simp at hs
    · intro sys hs
      simp at hs
    · intro sys hs
      simp at hs
    · intro sys hs
      simp only [Except.ok.injEq] at hs
      subst hs
      refine ⟨rfl, ?_, ?_⟩
      · simp [initSys, mkColors]
      · intro th hth
        simp only [initSys, List.mem_map] at hth
        obtain ⟨a, _, rfl⟩ := hth
        rfl

/-- C6 witness: a rejected and an accepted configuration, with the created
worker count of the accepted one. -/
theorem C6_configuration_validation_witness :
    (∃ e, setup 0 1 1 = Except.error e) ∧
    (∃ sys, setup 2 1 1 = Except.ok sys) ∧
    (initSys (2 : Int).toNat (mkColors (1 : Int).toNat (1 : Int).toNat)
      |>.threads.length) = (1 : Int).toNat + (1 : Int).toNat :=
  ⟨(C6_configuration_validation 0 1 1).1.mpr (Or.inl (by decide)),
   (C6_configuration_validation 2 1 1).2.1.mpr (by decide),
   ((C6_configuration_validation 2 1 1).2.2
     (initSys (2 : Int).toNat (mkColors (1 : Int).toNat (1 : Int).toNat))
     rfl).2.1⟩

/-- C7: the sequence numbers handed out at room entry (recorded in
assignment order) are strictly increasing, hence pairwise distinct, across
all workers of both colors. -/
theorem C7_ids_strictly_increasing :
    ∀ (N : Nat) (cols : List Color) (s : Sys), Reach N cols s →
      s.log.Pairwise (· < ·) :=
  fun _ _ _ hr => (inv_reach hr).logSorted

/-- C7 witness: a reachable state in which two IDs have been handed out. -/
theorem C7_ids_strictly_increasing_witness :
    sTwo.log.Pairwise (· < ·) ∧ sTwo.log = [1, 2] :=
  ⟨C7_ids_strictly_increasing 2 [Color.blue, Color.blue] sTwo reach_sTwo,
   by decide⟩

/-- C8: no single atomic statement both returns a capacity permit and
decrements the occupancy counter, and the intermediate state — permit
released, occupancy not yet decremented — is observable: in a reachable
capacity-1 state the exiting worker has executed `num_allowed_blue.release()`
but not yet `room_ctr -= 1`, while the other worker has already re-acquired
the released permit. -/
theorem C8_release_decrement_separate :
    (∀ (s : Sys) (i : Nat) (s' : Sys) (c : Color), threadNext s i = some s' →
        ¬(s.slots.get c < s'.slots.get c ∧ s'.roomCtr < s.roomCtr)) ∧
    (Reach 1 [Color.blue, Color.blue] sPermit ∧
      sPermit.threads[0]? = some ⟨Color.blue, PC.decRoomCtr, some 1⟩ ∧
      sPermit.threads[1]? = some ⟨Color.blue, PC.acqRoomMutex1, none⟩ ∧
      sPermit.roomCtr = 1 ∧ sPermit.slots.get Color.blue = 0) := by
  refine ⟨?_, reach_sPermit, by decide, by decide, by decide, by decide⟩
  intro s i s' c hstep
  unfold threadNext at hstep
  cases hth : s.threads[i]? with
  | none =>
    rw [hth] at hstep
    exact absurd hstep (by simp)
  | some th =>
    rw [hth] at hstep
    obtain ⟨c0, pc, tid⟩ := th
    cases pc <;> unfold stepOf at hstep <;> dsimp only at hstep
    all_goals first
    | exact Option.noConfusion hstep
    | (rw [Option.some.injEq] at hstep
       subst hstep
       rintro ⟨h1, h2⟩
       dsimp only at h1 h2
       omega)
    | (split at hstep
       · exact Option.noConfusion hstep
       · rw [Option.some.injEq] at hstep
         subst hstep
         rintro ⟨h1, h2⟩
         dsimp only at h1 h2
         omega)

/-- C8 witness: the very first statement of a fresh one-worker run neither
releases a permit nor decrements occupancy. -/
theorem C8_release_decrement_separate_witness :
    ¬((initSys 1 colsOne).slots.get Color.blue < sFirst.slots.get Color.blue ∧
       sFirst.roomCtr < (initSys 1 colsOne).roomCtr) :=
  C8_release_decrement_separate.1 (initSys 1 colsOne) 0 sFirst Color.blue rfl

/-- C9 counterexample: the claim that at every blocking wait all previously
acquired guards have been released fails on the code: in this reachable
state the blue worker is parked at `blue_green_mutex.acquire()` inside
`Lightswitch.lock` (a blocking wait, and it is actually blocked) while it
still holds both its lightswitch's internal mutex and the turnstile. -/
theorem C9_counterexample :
    Reach 1 [Color.green, Color.blue] sBlocked ∧
    sBlocked.threads[1]? = some ⟨Color.blue, PC.lsAcqBGM, none⟩ ∧
    blockingPC PC.lsAcqBGM = true ∧
    threadNext sBlocked 1 = none ∧
    lsMutexPC PC.lsAcqBGM = true ∧ sBlocked.lsMutex.get Color.blue = 0 ∧
    turnstilePC PC.lsAcqBGM = true ∧ sBlocked.turnstile = 0 :=
  ⟨reach_sBlocked, by decide, rfl, by decide, rfl, by decide, rfl, by decide⟩

/-- C9 (amended): `room_mutex` is never held at any blocking wait; the
lightswitch's internal mutex is held at a blocking wait only at the
exclusion-semaphore acquire inside `Lightswitch.lock`, where the turnstile
is also still held (intentionally — this is the starvation-avoidance
mechanism); the turnstile is otherwise held only across the lightswitch
mutex acquire of `lock`. -/
theorem C9_guard_discipline_amended :
    ∀ (N : Nat) (cols : List Color) (s : Sys) (i : Nat) (th : Thread),
      Reach N cols s → s.threads[i]? = some th → blockingPC th.pc = true →
      roomMutexPC th.pc = false ∧
      (lsMutexPC th.pc = true → th.pc = PC.lsAcqBGM) ∧
      (turnstilePC th.pc = true →
        th.pc = PC.lsAcqMutex ∨ th.pc = PC.lsAcqBGM) ∧
      (th.pc = PC.lsAcqBGM → s.lsMutex.get th.color = 0 ∧ s.turnstile = 0) := by
  intro N cols s i th hr hth hblock
  have Is := inv_reach hr
  refine ⟨?_, ?_, ?_, ?_⟩
  · revert hblock
    cases hpc : th.pc <;> decide
  · revert hblock
    cases hpc : th.pc <;> intro hblock hm
    all_goals first
    | rfl
    | exact absurd hblock (by decide)
    | exact absurd hm (by decide)
  · revert hblock
    cases hpc : th.pc <;> intro hblock ht
    all_goals first
    | exact Or.inl rfl
    | exact Or.inr rfl
    | exact absurd hblock (by decide)
    | exact absurd ht (by decide)
  · intro hpc
    constructor
    · have hpos := cntc_pos_of_mem (List.getElem?_mem hth)
        (p := lsMutexPC) (by rw [hpc]; rfl)
      have := Is.lsm th.color
      omega
    · have hpos := cntc_pos_of_mem (List.getElem?_mem hth)
        (p := turnstilePC) (by rw [hpc]; rfl)
      have hle := cntc_le_cnt s th.color turnstilePC
      have := Is.turn
      omega

/-- C9 amended witness: instantiated at the blocked blue worker of the
counterexample state. -/
theorem C9_guard_discipline_amended_witness :
    roomMutexPC (Thread.mk Color.blue PC.lsAcqBGM none).pc = false ∧
    (lsMutexPC (Thread.mk Color.blue PC.lsAcqBGM none).pc = true →
      (Thread.mk Color.blue PC.lsAcqBGM none).pc = PC.lsAcqBGM) ∧
    (turnstilePC (Thread.mk Color.blue PC.lsAcqBGM none).pc = true →
      (Thread.mk Color.blue PC.lsAcqBGM none).pc = PC.lsAcqMutex ∨
      (Thread.mk Color.blue PC.lsAcqBGM none).pc = PC.lsAcqBGM) ∧
    ((Thread.mk Color.blue PC.lsAcqBGM none).pc = PC.lsAcqBGM →
      sBlocked.lsMutex.get (Thread.mk Color.blue PC.lsAcqBGM none).color = 0 ∧
      sBlocked.turnstile = 0) :=
  C9_guard_discipline_amended 1 [Color.green, Color.blue] sBlocked 1
    (Thread.mk Color.blue PC.lsAcqBGM none) reach_sBlocked (by decide) rfl

/-- C10: starting from any consistent lightswitch state (nonnegative counter,
and a free exclusion semaphore whenever the counter is 0), `lock` followed by
`unlock` with no interleaved operations restores both the counter and the
exclusion semaphore: the acquire performed on the 0 → 1 transition is exactly
undone by the release on the 1 → 0 transition. -/
theorem C10_lock_unlock_roundtrip :
    ∀ (counter : Int) (bgm : Nat), 0 ≤ counter → (counter = 0 → 0 < bgm) →
      ∃ c' b', lightswitchLock counter bgm = some (c', b') ∧
        lightswitchUnlock c' b' = (counter, bgm) := by
  intro counter bgm hc hb
  by_cases h0 : counter = 0
  · subst h0
    have hbpos := hb rfl
    refine ⟨1, bgm - 1, ?_, ?_⟩
    · unfold lightswitchLock
      dsimp only
      rw [if_pos (by norm_num), if_neg (by omega)]
      norm_num
    · unfold lightswitchUnlock
      dsimp only
      rw [if_pos (by norm_num)]
      have hsub : bgm - 1 + 1 = bgm := by omega
      rw [hsub]
      norm_num
  · refine ⟨counter + 1, bgm, ?_, ?_⟩
    · unfold lightswitchLock
      dsimp only
      rw [if_neg (by omega)]
    · unfold lightswitchUnlock
      dsimp only
      rw [if_neg (by omega)]
      have hsub : counter + 1 - 1 = counter := by omega
      rw [hsub]

/-- C10 witness: the roundtrip at counter 0 with a free exclusion
semaphore. -/
theorem C10_lock_unlock_roundtrip_witness :
    ∃ c' b', lightswitchLock 0 1 = some (c', b') ∧
      lightswitchUnlock c' b' = (0, 1) :=
  C10_lock_unlock_roundtrip 0 1 (by decide) (fun _ => by decide)

end ProcSync
